import Mathlib

set_option maxRecDepth 8192

/-!
Shallow embedding of the ingestion-and-retrieval core of the growing-backend
repository (text chunker, embedding batch client, ingestion orchestrators and
the retrieval aggregator), together with theorems settling the spec claims.

Texts are modelled as `List Char`; the JavaScript string operations
(`substring`, `trim`, `replace(/\s+/g, ' ')`, regex break search) are embedded
as executable list functions.  Machine floats of the similarity scores are
modelled as rationals.  The asynchronous database writes of the orchestrators
are modelled as explicit state (the list of segment rows created by a run and
the final document status).
-/

namespace GrowingBackend

/-- JS `\s` whitespace class (the characters relevant to this code base). -/
def isWS (c : Char) : Bool :=
  c == ' ' || c == '\t' || c == '\n' || c == '\r' || c == '\x0b' || c == '\x0c'

/-- `text.replace(/\s+/g, ' ')`: every maximal whitespace run becomes one
space.  The flag records whether the previous character was whitespace. -/
def collapseWSAux : Bool → List Char → List Char
  | _, [] => []
  | prevWS, c :: cs =>
    if isWS c then
      if prevWS then collapseWSAux true cs
      else ' ' :: collapseWSAux true cs
    else c :: collapseWSAux false cs

/-- `text.replace(/\s+/g, ' ')`. -/
def collapseWS (l : List Char) : List Char := collapseWSAux false l

/-- JS `String.prototype.trim()`. -/
def trimWS (l : List Char) : List Char :=
  ((l.dropWhile isWS).reverse.dropWhile isWS).reverse

/-- The normalized text (`text.replace(/\s+/g, ' ').trim()`), called
`cleanText` in the source. -/
def normalizeText (text : List Char) : List Char := trimWS (collapseWS text)

/-- Number of leading whitespace characters. -/
def leadWS (l : List Char) : Nat := (l.takeWhile isWS).length

/-- Number of trailing whitespace characters. -/
def trailWS (l : List Char) : Nat := (l.reverse.takeWhile isWS).length

/-- Adjacent characters are never both whitespace (holds for normalized
text, where whitespace runs were collapsed to single spaces). -/
def WSpair (a b : Char) : Prop := ¬(isWS a = true ∧ isWS b = true)

/-- One yielded chunk `{content, tokens, index}` of `chunkTextGenerator`. -/
structure ChunkRec where
  content : List Char
  tokens : Nat
  index : Nat
deriving Repr, DecidableEq

/-- `CHUNK_CONFIG.charsPerToken` (= 4). -/
def charsPerToken : Nat := 4

/-- `CHUNK_CONFIG.maxTokens` (= 500). -/
def configMaxTokens : Nat := 500

/-- `CHUNK_CONFIG.overlapTokens` (= 50). -/
def configOverlapTokens : Nat := 50

/-- Index (into the searched window) of the last match of a one-character
pattern, as `[...text.matchAll(re)].at(-1).index`. -/
def lastMatch1 (p : Char → Bool) : List Char → Option Nat
  | [] => none
  | c :: cs =>
    match lastMatch1 p cs with
    | some i => some (i + 1)
    | none => if p c then some 0 else none

/-- Index of the last match of a two-character pattern (the JS break patterns
`\n\n`, `\.\s`, `[!?]\s`, `,\s` all match exactly two characters). -/
def lastMatch2 (p : Char → Char → Bool) : List Char → Option Nat
  | [] => none
  | [_] => none
  | a :: b :: cs =>
    match lastMatch2 p (b :: cs) with
    | some i => some (i + 1)
    | none => if p a b then some 0 else none

/-- The prioritised break-point search of `chunkTextGenerator`: the first
pattern with a match wins, and `bestBreak = searchStart + index + matchLength`.
Returns `none` for the JS sentinel `-1`. -/
def bestBreakOf (searchText : List Char) (searchStart : Nat) : Option Nat :=
  match lastMatch2 (fun a b => a == '\n' && b == '\n') searchText with
  | some i => some (searchStart + i + 2)
  | none =>
  match lastMatch2 (fun a b => a == '.' && isWS b) searchText with
  | some i => some (searchStart + i + 2)
  | none =>
  match lastMatch2 (fun a b => (a == '!' || a == '?') && isWS b) searchText with
  | some i => some (searchStart + i + 2)
  | none =>
  match lastMatch2 (fun a b => a == ',' && isWS b) searchText with
  | some i => some (searchStart + i + 2)
  | none =>
  match lastMatch1 isWS searchText with
  | some i => some (searchStart + i + 1)
  | none => none

/-- The per-iteration end-index computation of `chunkTextGenerator`
(clamp to the text end, else search a window for a natural break). -/
def computeEndIndex (clean : List Char) (maxChars startIndex : Nat) : Nat :=
  let endIndex0 := startIndex + maxChars
  if clean.length ≤ endIndex0 then clean.length
  else
    let searchStart := max (startIndex + maxChars - 200) startIndex
    let searchEnd := min (startIndex + maxChars + 100) clean.length
    let searchText := (clean.drop searchStart).take (searchEnd - searchStart)
    match bestBreakOf searchText searchStart with
    | some b => if startIndex < b then b else endIndex0
    | none => endIndex0

/-- The `while (startIndex < cleanText.length)` loop of `chunkTextGenerator`.
The JS `lastEndIndex = -1` sentinel is `none`; the loop is given explicit fuel
(the source loop's termination is the subject of claim C5). -/
def chunkLoopGo (clean : List Char) (maxChars overlapChars : Nat) :
    Nat → Nat → Nat → Option Nat → List ChunkRec → Option (List ChunkRec)
  | 0, _, _, _, _ => none
  | fuel + 1, startIndex, chunkIndex, lastEndIndex, acc =>
    if startIndex < clean.length then
      let endIndex := computeEndIndex clean maxChars startIndex
      let chunkContent := trimWS ((clean.drop startIndex).take (endIndex - startIndex))
      let emitted := chunkContent.length ≠ 0
      let acc2 := if emitted then
          acc ++ [⟨chunkContent, (chunkContent.length + charsPerToken - 1) / charsPerToken,
                   chunkIndex⟩]
        else acc
      let chunkIndex2 := if emitted then chunkIndex + 1 else chunkIndex
      let newStart := endIndex - overlapChars
      let startIndex2 := if newStart ≤ startIndex then endIndex else newStart
      if lastEndIndex = some endIndex then some acc2
      else chunkLoopGo clean maxChars overlapChars fuel startIndex2 chunkIndex2
        (some endIndex) acc2
    else some acc

/-- `chunkTextGenerator(text, maxTokens, overlapTokens)` from the embedding
service: the list of yielded chunks, or `none` if the modelled fuel
(`cleanText.length + 1` loop iterations) were ever insufficient. -/
def chunkTextGenerator (text : List Char)
    (maxTokens : Nat := configMaxTokens) (overlapTokens : Nat := configOverlapTokens) :
    Option (List ChunkRec) :=
  if (trimWS text).length = 0 then some []
  else
    let maxChars := maxTokens * charsPerToken
    let overlapChars := overlapTokens * charsPerToken
    let cleanText := trimWS (collapseWS text)
    if cleanText.length ≤ maxChars then
      some [⟨cleanText, (cleanText.length + charsPerToken - 1) / charsPerToken, 0⟩]
    else
      chunkLoopGo cleanText maxChars overlapChars (cleanText.length + 1) 0 0 none []

/-- `splitTextIntoChunks` (array version of the generator). -/
def splitTextIntoChunks (text : List Char)
    (maxTokens : Nat := configMaxTokens) (overlapTokens : Nat := configOverlapTokens) :
    List ChunkRec :=
  (chunkTextGenerator text maxTokens overlapTokens).getD []

/-- `countChunks(text)`. -/
def countChunks (text : List Char) : Nat :=
  (splitTextIntoChunks text).length

/-- Proof instrumentation of `chunkLoopGo`: identical control flow, but each
emitted chunk is paired with the position in `clean` at which its (trimmed)
content starts.  Used to prove the coverage claim. -/
def chunkLoopGoSpans (clean : List Char) (maxChars overlapChars : Nat) :
    Nat → Nat → Nat → Option Nat → List (Nat × ChunkRec) →
    Option (List (Nat × ChunkRec))
  | 0, _, _, _, _ => none
  | fuel + 1, startIndex, chunkIndex, lastEndIndex, acc =>
    if startIndex < clean.length then
      let endIndex := computeEndIndex clean maxChars startIndex
      let raw := (clean.drop startIndex).take (endIndex - startIndex)
      let chunkContent := trimWS raw
      let emitted := chunkContent.length ≠ 0
      let acc2 := if emitted then
          acc ++ [(startIndex + (raw.takeWhile isWS).length,
                   ⟨chunkContent, (chunkContent.length + charsPerToken - 1) / charsPerToken,
                    chunkIndex⟩)]
        else acc
      let chunkIndex2 := if emitted then chunkIndex + 1 else chunkIndex
      let newStart := endIndex - overlapChars
      let startIndex2 := if newStart ≤ startIndex then endIndex else newStart
      if lastEndIndex = some endIndex then some acc2
      else chunkLoopGoSpans clean maxChars overlapChars fuel startIndex2 chunkIndex2
        (some endIndex) acc2
    else some acc

/-- Position `i` lies inside one of the recorded chunk spans. -/
def coveredBy (acc : List (Nat × ChunkRec)) (i : Nat) : Prop :=
  ∃ p ∈ acc, p.1 ≤ i ∧ i < p.1 + p.2.content.length

/-! ## Embedding client (`generateEmbeddingsBatch`, part_007) -/

/-- The sub-batch loop `for (let i = 0; i < validTexts.length; i += 100)`:
one provider invocation per sub-batch of at most 100 entries.  Returns the
concatenated vectors and the number of provider calls made. -/
def embedBatchLoop (provider : List (List Char) → List (List ℚ)) :
    List (List Char) → List (List ℚ) × Nat
  | [] => ([], 0)
  | t :: ts =>
    let batch := (t :: ts).take 100
    let rest := embedBatchLoop provider ((t :: ts).drop 100)
    (provider batch ++ rest.1, rest.2 + 1)
termination_by l => l.length
decreasing_by simp; omega

/-- `generateEmbeddingsBatch(texts)`: filter out empty/whitespace-only texts,
truncate each survivor to 32000 characters, embed in sub-batches of 100.
The external provider is a parameter; the second component counts provider
calls. -/
def generateEmbeddingsBatch (provider : List (List Char) → List (List ℚ))
    (texts : List (List Char)) : List (List ℚ) × Nat :=
  if texts.length = 0 then ([], 0)
  else
    let validTexts :=
      ((texts.map trimWS).filter (fun t => 0 < t.length)).map (fun t => t.take 32000)
    if validTexts.length = 0 then ([], 0)
    else embedBatchLoop provider validTexts

/-! ## Retrieval aggregator (`searchSimilar`, part_007 lines 239-282) -/

/-- One row returned by the segment nearest-neighbour query (the resource
metadata columns `tipo/titulo/descripcion/url/categoria` are irrelevant to the
claims and omitted). -/
structure ChunkHit where
  recursoId : Nat
  similarity : ℚ
  contenido : List Char
deriving Repr, DecidableEq

/-- One aggregated per-resource result built by `searchSimilar`. -/
structure ResourceAgg where
  id : Nat
  similarity : ℚ
  contenido : List Char
  chunks : List (List Char)
deriving Repr, DecidableEq

/-- The visible separator `'\n\n---\n\n'` used by `chunks.join`. -/
def chunkSeparator : List Char := ['\n', '\n', '-', '-', '-', '\n', '\n']

/-- The `else` branch of the grouping loop: add the chunk's content if fewer
than 3 chunks are retained, and keep the best similarity. -/
def addChunkToResource (r : ResourceAgg) (hit : ChunkHit) : ResourceAgg :=
  let r1 :=
    if r.chunks.length < 3 then
      let cs := r.chunks ++ [hit.contenido]
      { r with chunks := cs, contenido := List.intercalate chunkSeparator cs }
    else r
  if r1.similarity < hit.similarity then { r1 with similarity := hit.similarity } else r1

/-- One step of the grouping loop over `chunkResults`; the JS `Map` (iterated
in insertion order) is modelled as an association list in insertion order. -/
def insertChunkHit (acc : List ResourceAgg) (hit : ChunkHit) : List ResourceAgg :=
  if acc.any (fun r => r.id == hit.recursoId) then
    acc.map (fun r => if r.id == hit.recursoId then addChunkToResource r hit else r)
  else
    acc ++ [⟨hit.recursoId, hit.similarity, hit.contenido, [hit.contenido]⟩]

/-- The grouping loop `for (const chunk of chunkResults)`. -/
def aggregateChunkHits (hits : List ChunkHit) : List ResourceAgg :=
  hits.foldl insertChunkHit []

/-- `searchSimilar` on a non-empty chunk query result: group by resource,
sort by similarity descending (`(a, b) => b.similarity - a.similarity`),
truncate to `limit`. -/
def searchSimilar (hits : List ChunkHit) (limit : Nat) : List ResourceAgg :=
  ((aggregateChunkHits hits).mergeSort
    (fun a b => decide (b.similarity ≤ a.similarity))).take limit

/-- Loop invariant of the grouping fold: after processing the hits `pre`,
the accumulator holds one entry per distinct resource id, whose retained
chunks are the first (at most 3) hit contents for that id in encounter
order, whose representative content is their separator join, and whose
similarity is the maximum hit similarity for that id, attained by some
processed hit. -/
def AggInv (pre : List ChunkHit) (acc : List ResourceAgg) : Prop :=
  (acc.map (fun r => r.id)).Nodup ∧
  (∀ n, n ∈ acc.map (fun r => r.id) ↔ n ∈ pre.map (fun h => h.recursoId)) ∧
  ∀ r ∈ acc,
    r.chunks = ((pre.filter (fun h => h.recursoId == r.id)).map
      (fun h => h.contenido)).take 3 ∧
    r.contenido = List.intercalate chunkSeparator r.chunks ∧
    (∀ h ∈ pre, h.recursoId = r.id → h.similarity ≤ r.similarity) ∧
    (∃ h ∈ pre, h.recursoId = r.id ∧ h.similarity = r.similarity)

/-! ## Ingestion orchestrators (part_005 `processRecursoChunks` and
recursos.js `processRecursoChunksWithContent`) -/

/-- The shared `embeddingStatus` enum. -/
inductive EmbStatus where
  | pending
  | processing
  | completed
  | error
deriving Repr, DecidableEq

/-- A persisted `Chunks` row as the claims see it. -/
structure SegRow where
  chunkIndex : Nat
  contenido : List Char
  tokens : Nat
  embeddingStatus : EmbStatus
deriving Repr, DecidableEq

/-- `[recurso.titulo, recurso.descripcion, recurso.contenido].filter(Boolean).join('\n\n')`:
`filter(Boolean)` drops both `null` fields and empty strings. -/
def assembleFullText (titulo descripcion contenido : Option (List Char)) : List Char :=
  List.intercalate ['\n', '\n']
    (([titulo, descripcion, contenido].filterMap id).filter (fun s => 0 < s.length))

/-- The per-chunk embedding loop of part_005 `processRecursoChunks` (batches
of `BATCH_SIZE` chunks are processed strictly sequentially, so the batching
only affects logging and pauses).  `embedOk i` tells whether the
`generateEmbedding` call for the chunk of index `i` succeeds.  Returns the
final segment rows and the `(completedCount, errorCount)` counters. -/
def processRecursoChunksLoop (embedOk : Nat → Bool) (chunks : List ChunkRec) :
    List SegRow × Nat × Nat :=
  chunks.foldl
    (fun st c =>
      match chunks.find? (fun c2 => c2.index == c.index) with
      | none => (st.1 ++ [⟨c.index, c.content, c.tokens, .error⟩], st.2.1, st.2.2 + 1)
      | some chunkData =>
        if embedOk chunkData.index then
          (st.1 ++ [⟨c.index, c.content, c.tokens, .completed⟩], st.2.1 + 1, st.2.2)
        else
          (st.1 ++ [⟨c.index, c.content, c.tokens, .error⟩], st.2.1, st.2.2 + 1))
    ([], 0, 0)

/-- part_005 `processRecursoChunks(recursoId)`, modelled on the document's
three text fields.  `fault = some k` injects an unhandled exception after `k`
chunks were attempted; the enclosing `catch` then forces the document status
to `error`.  Returns the final document status and created segment rows
(rows not yet attempted when the fault hit are still `pending`). -/
def processRecursoChunks (titulo descripcion contenido : Option (List Char))
    (embedOk : Nat → Bool) (fault : Option Nat) : EmbStatus × List SegRow :=
  let fullText := assembleFullText titulo descripcion contenido
  if (trimWS fullText).length = 0 then (.error, [])
  else
    let chunks := splitTextIntoChunks fullText
    if chunks.length = 0 then (.error, [])
    else
      match fault with
      | some k =>
        let done := (processRecursoChunksLoop embedOk (chunks.take k)).1
        let rest := (chunks.drop k).map
          (fun c => SegRow.mk c.index c.content c.tokens .pending)
        (.error, done ++ rest)
      | none =>
        let r := processRecursoChunksLoop embedOk chunks
        (if r.2.2 = 0 then .completed
         else if 0 < r.2.1 then .completed else .error, r.1)

/-- What can happen while the streaming variant processes one chunk. -/
inductive StreamOutcome where
  | ok
  | failBeforeCreate
  | failAfterCreate
deriving Repr, DecidableEq

/-- The rows left behind for one chunk by the streaming loop of
`processRecursoChunksWithContent`: on success one completed row with the full
content; on a failure before `Chunk.create` only the recovery row truncated to
1000 characters with status `error`; on a failure after the create
additionally the stuck `processing` row. -/
def streamChunkRows (c : ChunkRec) (o : StreamOutcome) : List SegRow :=
  match o with
  | .ok => [⟨c.index, c.content, c.tokens, .completed⟩]
  | .failBeforeCreate => [⟨c.index, c.content.take 1000, c.tokens, .error⟩]
  | .failAfterCreate =>
    [⟨c.index, c.content, c.tokens, .processing⟩,
     ⟨c.index, c.content.take 1000, c.tokens, .error⟩]

/-- recursos.js `processRecursoChunksWithContent(recursoId, fullText)`:
generator-driven streaming ingestion.  `outcome i` is the fate of the chunk
of index `i`; `fault = some k` injects an unhandled exception after `k`
chunks, forcing document status `error` through the enclosing catch. -/
def processRecursoChunksWithContent (fullText : List Char)
    (outcome : Nat → StreamOutcome) (fault : Option Nat) : EmbStatus × List SegRow :=
  if (trimWS fullText).length = 0 then (.error, [])
  else
    let chunks := splitTextIntoChunks fullText
    if chunks.length = 0 then (.error, [])
    else
      match fault with
      | some k =>
        (.error, ((chunks.take k).map (fun c => streamChunkRows c (outcome c.index))).flatten)
      | none =>
        let rows := (chunks.map (fun c => streamChunkRows c (outcome c.index))).flatten
        let completedCount := (chunks.filter (fun c => outcome c.index == .ok)).length
        let errorCount := (chunks.filter (fun c => !(outcome c.index == .ok))).length
        (if errorCount = 0 then .completed
         else if 0 < completedCount then .completed else .error, rows)

/-- The chunk-update loop of the recursos.js batch orchestrator (first file
version): `embeddings[i] ? completed : error` — visiting the created rows and
the returned vectors positionally, one vector per row.  A JS array is truthy
(even when empty), so a row errors exactly when the embeddings array has no
entry at its position. -/
def batchUpdateRows : List ChunkRec → List (List ℚ) → List SegRow
  | [], _ => []
  | c :: cs, [] =>
    ⟨c.index, c.content, c.tokens, .error⟩ :: batchUpdateRows cs []
  | c :: cs, _ :: es =>
    ⟨c.index, c.content, c.tokens, .completed⟩ :: batchUpdateRows cs es

/-- recursos.js (first file version, lines 337-440) `processRecursoChunks`:
the batch-embedding orchestrator.  All chunk texts go through
`generateEmbeddingsBatch` at once, each row is then updated from
`embeddings[i]`, and the final document status is
`errorCount === 0 ? 'completed' : 'error'` (lines 406-413) — with no
partial-success clause.  `fault = some k` injects an unhandled exception after
`k` rows of the update loop were written: the inner catch flips the
still-pending rows to `error` and the document to `error`. -/
def processRecursoChunksBatch (provider : List (List Char) → List (List ℚ))
    (titulo descripcion contenido : Option (List Char)) (fault : Option Nat) :
    EmbStatus × List SegRow :=
  let fullText := assembleFullText titulo descripcion contenido
  if (trimWS fullText).length = 0 then (.error, [])
  else
    let chunks := splitTextIntoChunks fullText
    if chunks.length = 0 then (.error, [])
    else
      let embs := (generateEmbeddingsBatch provider (chunks.map (fun c => c.content))).1
      match fault with
      | some k =>
        let done := batchUpdateRows (chunks.take k) embs
        let rest := (chunks.drop k).map
          (fun c => SegRow.mk c.index c.content c.tokens .error)
        (.error, done ++ rest)
      | none =>
        let rows := batchUpdateRows chunks embs
        let errorCount := (rows.filter (fun r => r.embeddingStatus == .error)).length
        (if errorCount = 0 then .completed else .error, rows)

/-! # Theorems

## Whitespace and trimming toolkit -/

theorem dropWhile_eq_drop_len (p : Char → Bool) (l : List Char) :
    l.dropWhile p = l.drop (l.takeWhile p).length :=
  calc l.dropWhile p
      = ((l.takeWhile p) ++ l.dropWhile p).drop (l.takeWhile p).length :=
        (List.drop_left _ _).symm
    _ = l.drop (l.takeWhile p).length := by rw [List.takeWhile_append_dropWhile]

theorem head_dropWhile_not (p : Char → Bool) :
    ∀ (l : List Char) (c : Char), (l.dropWhile p).head? = some c → p c = false
  | [], c, h => by simp [List.dropWhile] at h
  | a :: l, c, h => by
    rw [List.dropWhile_cons] at h
    by_cases hp : p a = true
    · rw [if_pos hp] at h
      exact head_dropWhile_not p l c h
    · rw [if_neg hp] at h
      simp only [List.head?_cons, Option.some.injEq] at h
      subst h
      exact eq_false_of_ne_true hp

theorem trimWS_eq (l : List Char) :
    trimWS l = (l.dropWhile isWS).take
      ((l.dropWhile isWS).length - trailWS (l.dropWhile isWS)) := by
  unfold trimWS trailWS
  rw [dropWhile_eq_drop_len isWS (l.dropWhile isWS).reverse, List.reverse_drop,
    List.reverse_reverse, List.length_reverse]

theorem trimWS_length_le (l : List Char) : (trimWS l).length ≤ l.length := by
  rw [trimWS_eq, dropWhile_eq_drop_len]
  simp only [List.length_take, List.length_drop]
  omega

theorem head?_take_some (x : List Char) (n : Nat) (c : Char)
    (h : (x.take n).head? = some c) : x.head? = some c := by
  cases x with
  | nil => simp at h
  | cons a x =>
    cases n with
    | zero => simp at h
    | succ n => simpa using h

theorem trimWS_head_not_ws (l : List Char) (c : Char)
    (h : (trimWS l).head? = some c) : isWS c = false := by
  rw [trimWS_eq] at h
  exact head_dropWhile_not isWS l c (head?_take_some _ _ _ h)

theorem trimWS_getLast_not_ws (l : List Char) (c : Char)
    (h : (trimWS l).getLast? = some c) : isWS c = false := by
  unfold trimWS at h
  rw [List.getLast?_reverse] at h
  exact head_dropWhile_not _ _ _ h

theorem trimWS_eq_nil_iff (l : List Char) :
    trimWS l = [] ↔ ∀ c ∈ l, isWS c = true := by
  unfold trimWS
  rw [List.reverse_eq_nil_iff, List.dropWhile_eq_nil_iff]
  constructor
  · intro h c hc
    have hsplit := List.takeWhile_append_dropWhile (p := isWS) (l := l)
    rw [← hsplit] at hc
    rcases List.mem_append.mp hc with h1 | h1
    · exact List.mem_takeWhile_imp h1
    · exact h c (List.mem_reverse.mpr h1)
  · intro h c hc
    refine h c ?_
    have := List.mem_reverse.mp hc
    rw [dropWhile_eq_drop_len] at this
    exact List.mem_of_mem_drop this

theorem collapseWSAux_allWS (l : List Char) (h : ∀ c ∈ l, isWS c = true) :
    ∀ (b : Bool), ∀ c ∈ collapseWSAux b l, isWS c = true := by
  induction l with
  | nil => intro b c hc; simp [collapseWSAux] at hc
  | cons a l ih =>
    intro b c hc
    have ha := h a (by simp)
    have hl : ∀ c ∈ l, isWS c = true := fun x hx => h x (by simp [hx])
    simp only [collapseWSAux, ha, if_true] at hc
    cases b with
    | true => exact ih hl true c hc
    | false =>
      rcases List.mem_cons.mp hc with h1 | h1
      · subst h1; decide
      · exact ih hl true c h1

theorem normalizeText_eq_nil_of_trim_nil (text : List Char)
    (h : trimWS text = []) : normalizeText text = [] := by
  have hall := (trimWS_eq_nil_iff text).mp h
  exact (trimWS_eq_nil_iff _).mpr (collapseWSAux_allWS text hall false)

theorem collapseWSAux_true_head (l : List Char) (c : Char)
    (h : (collapseWSAux true l).head? = some c) : isWS c = false := by
  induction l with
  | nil => simp [collapseWSAux] at h
  | cons a l ih =>
    by_cases ha : isWS a = true
    · rw [show collapseWSAux true (a :: l) = collapseWSAux true l by
        simp [collapseWSAux, ha]] at h
      exact ih h
    · rw [show collapseWSAux true (a :: l) = a :: collapseWSAux false l by
        simp [collapseWSAux, ha]] at h
      simp only [List.head?_cons, Option.some.injEq] at h
      subst h
      exact eq_false_of_ne_true ha

theorem chain_collapseWSAux (l : List Char) :
    ∀ (b : Bool), List.Chain' WSpair (collapseWSAux b l) := by
  induction l with
  | nil => intro b; simp [collapseWSAux]
  | cons a l ih =>
    intro b
    by_cases ha : isWS a = true
    · cases b with
      | true =>
        rw [show collapseWSAux true (a :: l) = collapseWSAux true l by
          simp [collapseWSAux, ha]]
        exact ih true
      | false =>
        rw [show collapseWSAux false (a :: l) = ' ' :: collapseWSAux true l by
          simp [collapseWSAux, ha]]
        rw [List.chain'_cons']
        refine ⟨fun y hy => ?_, ih true⟩
        have := collapseWSAux_true_head l y hy
        intro hab
        rw [this] at hab
        exact absurd hab.2 (by simp)
    · rw [show collapseWSAux b (a :: l) = a :: collapseWSAux false l by
        simp [collapseWSAux, ha]]
      rw [List.chain'_cons']
      refine ⟨fun y _ => ?_, ih false⟩
      intro hab
      exact absurd hab.1 ha

theorem chain_normalizeText (text : List Char) :
    List.Chain' WSpair (normalizeText text) := by
  have h := chain_collapseWSAux text false
  unfold normalizeText collapseWS
  rw [trimWS_eq, dropWhile_eq_drop_len]
  exact (h.drop _).take _

theorem leadWS_le_one (l : List Char) (hc : List.Chain' WSpair l) :
    leadWS l ≤ 1 := by
  cases l with
  | nil => simp [leadWS]
  | cons a l =>
    cases l with
    | nil =>
      unfold leadWS
      rw [List.takeWhile_cons]
      split <;> simp
    | cons b l2 =>
      by_cases ha : isWS a = true
      · have hab : WSpair a b := (List.chain'_cons.mp hc).1
        have hb : isWS b = false := by
          by_contra hb
          exact hab ⟨ha, eq_true_of_ne_false hb⟩
        unfold leadWS
        rw [List.takeWhile_cons, if_pos ha, List.takeWhile_cons, if_neg (by simp [hb])]
        simp
      · unfold leadWS
        rw [List.takeWhile_cons, if_neg (by simp [ha])]
        simp

theorem leadWS_eq_zero (l : List Char) (c : Char) (h : l.head? = some c)
    (hc : isWS c = false) : leadWS l = 0 := by
  cases l with
  | nil => simp at h
  | cons a l =>
    simp only [List.head?_cons, Option.some.injEq] at h
    subst h
    unfold leadWS
    rw [List.takeWhile_cons, if_neg (by simp [hc])]
    simp

theorem WSpair_flip (a b : Char) (h : WSpair a b) : WSpair b a := by
  intro hab
  exact h ⟨hab.2, hab.1⟩

theorem trailWS_eq_leadWS_reverse (l : List Char) : trailWS l = leadWS l.reverse := rfl

theorem trailWS_le_one (l : List Char) (hc : List.Chain' WSpair l) :
    trailWS l ≤ 1 := by
  rw [trailWS_eq_leadWS_reverse]
  refine leadWS_le_one _ ?_
  rw [List.chain'_reverse]
  exact hc.imp (fun a b h => WSpair_flip a b h)

theorem trailWS_eq_zero (l : List Char) (c : Char) (h : l.getLast? = some c)
    (hc : isWS c = false) : trailWS l = 0 := by
  rw [trailWS_eq_leadWS_reverse]
  exact leadWS_eq_zero l.reverse c (by rw [List.head?_reverse]; exact h) hc

/-- Trimming a window `[st, e)` of a normalized text removes at most one
character at each side, and the result is the exact slice
`[st + a, e - b)` of the text. -/
theorem trim_slice (clean : List Char) (st e : Nat) (hc : List.Chain' WSpair clean)
    (h2 : st + 2 ≤ e) (he : e ≤ clean.length) :
    ∃ a b, a = leadWS ((clean.drop st).take (e - st)) ∧ a ≤ 1 ∧ b ≤ 1 ∧
      trimWS ((clean.drop st).take (e - st))
        = (clean.drop (st + a)).take (e - b - (st + a)) ∧
      (trimWS ((clean.drop st).take (e - st))).length = e - b - (st + a) ∧
      (∀ c, clean[st]? = some c → isWS c = false → a = 0) ∧
      (∀ c, clean[e - 1]? = some c → isWS c = false → b = 0) := by
  set l := (clean.drop st).take (e - st) with hl
  have hlen : l.length = e - st := by
    simp only [hl, List.length_take, List.length_drop]
    omega
  have hcl : List.Chain' WSpair l := (hc.drop st).take _
  set a := leadWS l with hadef
  set m := l.dropWhile isWS with hmdef
  have ha1 : a ≤ 1 := leadWS_le_one l hcl
  have hm : m = l.drop a := dropWhile_eq_drop_len isWS l
  have hchainm : List.Chain' WSpair m := by rw [hm]; exact hcl.drop a
  set b := trailWS m with hbdef
  have hb1 : b ≤ 1 := trailWS_le_one m hchainm
  have htrim : trimWS l = m.take (m.length - b) := trimWS_eq l
  have hmlen : m.length = e - st - a := by
    rw [hm, List.length_drop, hlen]
  have hm2 : m = (clean.drop (st + a)).take (e - st - a) := by
    rw [hm, hl, List.drop_take, List.drop_drop]
  have htrim2 : trimWS l = (clean.drop (st + a)).take (e - b - (st + a)) := by
    rw [htrim, hmlen, hm2, List.take_take]
    congr 1
    omega
  have hlen2 : (trimWS l).length = e - b - (st + a) := by
    rw [htrim2]
    simp only [List.length_take, List.length_drop]
    omega
  refine ⟨a, b, by rw [hadef, hl], ha1, hb1, htrim2, hlen2, ?_, ?_⟩
  · intro c hgc hcws
    refine leadWS_eq_zero l c ?_ hcws
    rw [List.head?_eq_getElem?, hl, List.getElem?_take, if_pos (by omega),
      List.getElem?_drop]
    simpa using hgc
  · intro c hgc hcws
    refine trailWS_eq_zero m c ?_ hcws
    rw [List.getLast?_eq_getElem?, hmlen, hm2, List.getElem?_take,
      if_pos (by omega), List.getElem?_drop,
      show st + a + (e - st - a - 1) = e - 1 by omega]
    exact hgc

/-! ## Bounds for the break search and `computeEndIndex` -/

theorem lastMatch1_lt (p : Char → Bool) :
    ∀ (l : List Char) (i : Nat), lastMatch1 p l = some i → i < l.length
  | [], i, h => by simp [lastMatch1] at h
  | c :: cs, i, h => by
    rw [lastMatch1] at h
    rcases h2 : lastMatch1 p cs with _ | j
    · rw [h2] at h
      by_cases hp : p c
      · rw [if_pos hp] at h
        simp only [Option.some.injEq] at h
        subst h
        simp
      · rw [if_neg hp] at h
        exact absurd h (by simp)
    · rw [h2] at h
      simp only [Option.some.injEq] at h
      subst h
      have := lastMatch1_lt p cs j h2
      simp only [List.length_cons]
      omega

theorem lastMatch2_lt (p : Char → Char → Bool) :
    ∀ (l : List Char) (i : Nat), lastMatch2 p l = some i → i + 2 ≤ l.length
  | [], i, h => by simp [lastMatch2] at h
  | [_], i, h => by simp [lastMatch2] at h
  | a :: b :: cs, i, h => by
    rw [lastMatch2] at h
    rcases h2 : lastMatch2 p (b :: cs) with _ | j
    · rw [h2] at h
      by_cases hp : p a b
      · rw [if_pos hp] at h
        simp only [Option.some.injEq] at h
        subst h
        simp
      · rw [if_neg hp] at h
        exact absurd h (by simp)
    · rw [h2] at h
      simp only [Option.some.injEq] at h
      subst h
      have := lastMatch2_lt p (b :: cs) j h2
      simp only [List.length_cons] at this ⊢
      omega

theorem bestBreakOf_bounds (searchText : List Char) (searchStart bk : Nat)
    (h : bestBreakOf searchText searchStart = some bk) :
    searchStart + 1 ≤ bk ∧ bk ≤ searchStart + searchText.length := by
  unfold bestBreakOf at h
  split at h
  · rename_i i hi
    simp only [Option.some.injEq] at h
    subst h
    have := lastMatch2_lt _ _ _ hi
    omega
  split at h
  · rename_i i hi
    simp only [Option.some.injEq] at h
    subst h
    have := lastMatch2_lt _ _ _ hi
    omega
  split at h
  · rename_i i hi
    simp only [Option.some.injEq] at h
    subst h
    have := lastMatch2_lt _ _ _ hi
    omega
  split at h
  · rename_i i hi
    simp only [Option.some.injEq] at h
    subst h
    have := lastMatch2_lt _ _ _ hi
    omega
  split at h
  · rename_i i hi
    simp only [Option.some.injEq] at h
    subst h
    have := lastMatch1_lt _ _ _ hi
    omega
  · exact absurd h (by simp)

theorem computeEndIndex_le (clean : List Char) (maxChars st : Nat)
    (hst : st < clean.length) :
    computeEndIndex clean maxChars st ≤ clean.length := by
  simp only [computeEndIndex]
  split
  · exact le_refl _
  · rename_i hlt
    simp only [not_le] at hlt
    split
    · rename_i b hb
      have := bestBreakOf_bounds _ _ _ hb
      simp only [List.length_take, List.length_drop] at this
      split
      · omega
      · omega
    · omega

theorem computeEndIndex_gt (clean : List Char) (maxChars st : Nat)
    (hmc : 1 ≤ maxChars) (hst : st < clean.length) :
    st < computeEndIndex clean maxChars st := by
  simp only [computeEndIndex]
  split
  · exact hst
  · split
    · split
      · assumption
      · omega
    · omega

theorem computeEndIndex_sub_le (clean : List Char) (maxChars st : Nat) :
    computeEndIndex clean maxChars st - st ≤ maxChars + 100 := by
  simp only [computeEndIndex]
  split
  · rename_i hle
    omega
  · rename_i hlt
    split
    · rename_i b hb
      have := bestBreakOf_bounds _ _ _ hb
      simp only [List.length_take, List.length_drop] at this
      split
      · omega
      · omega
    · omega

/-- At the default configuration (`maxChars = 2000`), every computed end
either clamps to the text end or advances at least 1801 characters. -/
theorem computeEndIndex_default (clean : List Char) (st : Nat) :
    computeEndIndex clean 2000 st = clean.length ∨
      (st + 1801 ≤ computeEndIndex clean 2000 st ∧
       computeEndIndex clean 2000 st ≤ st + 2100) := by
  simp only [computeEndIndex]
  split
  · exact Or.inl rfl
  · rename_i hlt
    simp only [not_le] at hlt
    right
    split
    · rename_i b hb
      have hbb := bestBreakOf_bounds _ _ _ hb
      simp only [List.length_take, List.length_drop] at hbb
      have hss : max (st + 2000 - 200) st = st + 1800 := by omega
      rw [hss] at hbb
      split
      · omega
      · omega
    · omega

/-! ## The chunking loop: termination, size bound, instrumentation -/

theorem chunkLoopGo_isSome (clean : List Char) (maxChars overlapChars : Nat)
    (hmc : 1 ≤ maxChars) :
    ∀ (fuel st ci : Nat) (le : Option Nat) (acc : List ChunkRec),
      clean.length - st < fuel →
      (chunkLoopGo clean maxChars overlapChars fuel st ci le acc).isSome = true := by
  intro fuel
  induction fuel with
  | zero => intro st ci le acc h; omega
  | succ fuel ih =>
    intro st ci le acc h
    by_cases hst : st < clean.length
    · simp only [chunkLoopGo, if_pos hst]
      split
      · simp
      · apply ih
        have hgt := computeEndIndex_gt clean maxChars st hmc hst
        split <;> omega
    · simp only [chunkLoopGo, if_neg hst]
      simp

theorem chunkLoopGo_content_bound (clean : List Char) (maxChars overlapChars : Nat) :
    ∀ (fuel st ci : Nat) (le : Option Nat) (acc out : List ChunkRec),
      chunkLoopGo clean maxChars overlapChars fuel st ci le acc = some out →
      (∀ c ∈ acc, c.content.length ≤ maxChars + 100) →
      ∀ c ∈ out, c.content.length ≤ maxChars + 100 := by
  intro fuel
  induction fuel with
  | zero => intro st ci le acc out h; simp [chunkLoopGo] at h
  | succ fuel ih =>
    intro st ci le acc out h hacc
    have hnew : ∀ c ∈ acc ++
        [ChunkRec.mk (trimWS ((clean.drop st).take (computeEndIndex clean maxChars st - st)))
          (((trimWS ((clean.drop st).take (computeEndIndex clean maxChars st - st))).length
            + charsPerToken - 1) / charsPerToken) ci],
        c.content.length ≤ maxChars + 100 := by
      intro c hc
      rcases List.mem_append.mp hc with h1 | h1
      · exact hacc c h1
      · simp only [List.mem_singleton] at h1
        subst h1
        simp only
        calc (trimWS ((clean.drop st).take (computeEndIndex clean maxChars st - st))).length
            ≤ ((clean.drop st).take (computeEndIndex clean maxChars st - st)).length :=
              trimWS_length_le _
          _ ≤ computeEndIndex clean maxChars st - st := by
              simp [List.length_take]
          _ ≤ maxChars + 100 := computeEndIndex_sub_le clean maxChars st
    by_cases hst : st < clean.length
    · simp only [chunkLoopGo, if_pos hst] at h
      by_cases hemit : (trimWS ((clean.drop st).take
          (computeEndIndex clean maxChars st - st))).length ≠ 0
      · simp only [if_pos hemit] at h
        split at h
        · simp only [Option.some.injEq] at h
          subst h
          exact hnew
        · exact ih _ _ _ _ _ h hnew
      · simp only [if_neg hemit] at h
        split at h
        · simp only [Option.some.injEq] at h
          subst h
          exact hacc
        · exact ih _ _ _ _ _ h hacc
    · simp only [chunkLoopGo, if_neg hst, Option.some.injEq] at h
      subst h
      exact hacc

theorem chunkLoopGoSpans_agree (clean : List Char) (maxChars overlapChars : Nat) :
    ∀ (fuel st ci : Nat) (le : Option Nat) (acc : List (Nat × ChunkRec)),
      chunkLoopGo clean maxChars overlapChars fuel st ci le (acc.map Prod.snd)
        = Option.map (List.map Prod.snd)
            (chunkLoopGoSpans clean maxChars overlapChars fuel st ci le acc) := by
  intro fuel
  induction fuel with
  | zero => intro st ci le acc; simp [chunkLoopGo, chunkLoopGoSpans]
  | succ fuel ih =>
    intro st ci le acc
    by_cases hst : st < clean.length
    · simp only [chunkLoopGo, chunkLoopGoSpans, if_pos hst]
      by_cases hemit : (trimWS ((clean.drop st).take
          (computeEndIndex clean maxChars st - st))).length ≠ 0
      · simp only [if_pos hemit]
        split
        · simp [List.map_append]
        · have := ih
            (if computeEndIndex clean maxChars st - overlapChars ≤ st
              then computeEndIndex clean maxChars st
              else computeEndIndex clean maxChars st - overlapChars)
            (ci + 1) (some (computeEndIndex clean maxChars st))
            (acc ++ [(st + (((clean.drop st).take
              (computeEndIndex clean maxChars st - st)).takeWhile isWS).length,
              ⟨trimWS ((clean.drop st).take (computeEndIndex clean maxChars st - st)),
               ((trimWS ((clean.drop st).take
                 (computeEndIndex clean maxChars st - st))).length
                 + charsPerToken - 1) / charsPerToken, ci⟩)])
          simpa [List.map_append] using this
      · simp only [if_neg hemit]
        split
        · rfl
        · exact ih _ _ _ acc
    · simp only [chunkLoopGo, chunkLoopGoSpans, if_neg hst]
      rfl

theorem take_self_length (y : List Char) (n : Nat) :
    y.take n = y.take ((y.take n).length) := by
  rw [List.length_take]
  rcases Nat.le_total n y.length with h | h
  · rw [Nat.min_eq_left h]
  · rw [Nat.min_eq_right h, List.take_length, List.take_of_length_le h]

theorem trim_take_drop_as_slice (clean : List Char) (st k : Nat) :
    trimWS ((clean.drop st).take k)
      = (clean.drop (st + leadWS ((clean.drop st).take k))).take
          ((trimWS ((clean.drop st).take k)).length) := by
  set l := (clean.drop st).take k with hl
  set a := leadWS l with ha
  have hm : l.dropWhile isWS = l.drop a := dropWhile_eq_drop_len isWS l
  have h1 : trimWS l = ((clean.drop (st + a)).take (k - a)).take
      ((l.dropWhile isWS).length - trailWS (l.dropWhile isWS)) := by
    rw [trimWS_eq l, hm]
    rw [show l.drop a = (clean.drop (st + a)).take (k - a) by
      rw [hl, List.drop_take, List.drop_drop]]
  rw [h1, List.take_take]
  exact take_self_length _ _

theorem chunkLoopGoSpans_valid (clean : List Char) (maxChars overlapChars : Nat) :
    ∀ (fuel st ci : Nat) (le : Option Nat) (acc out : List (Nat × ChunkRec)),
      chunkLoopGoSpans clean maxChars overlapChars fuel st ci le acc = some out →
      (∀ p ∈ acc, p.2.content = (clean.drop p.1).take p.2.content.length) →
      ∀ p ∈ out, p.2.content = (clean.drop p.1).take p.2.content.length := by
  intro fuel
  induction fuel with
  | zero => intro st ci le acc out h; simp [chunkLoopGoSpans] at h
  | succ fuel ih =>
    intro st ci le acc out h hacc
    by_cases hst : st < clean.length
    · have hnew : ∀ p ∈ acc ++
          [(st + (((clean.drop st).take
              (computeEndIndex clean maxChars st - st)).takeWhile isWS).length,
            ChunkRec.mk
              (trimWS ((clean.drop st).take (computeEndIndex clean maxChars st - st)))
              (((trimWS ((clean.drop st).take
                (computeEndIndex clean maxChars st - st))).length
                + charsPerToken - 1) / charsPerToken) ci)],
          p.2.content = (clean.drop p.1).take p.2.content.length := by
        intro p hp
        rcases List.mem_append.mp hp with h1 | h1
        · exact hacc p h1
        · simp only [List.mem_singleton] at h1
          subst h1
          simp only
          exact trim_take_drop_as_slice clean st
            (computeEndIndex clean maxChars st - st)
      simp only [chunkLoopGoSpans, if_pos hst] at h
      by_cases hemit : (trimWS ((clean.drop st).take
          (computeEndIndex clean maxChars st - st))).length ≠ 0
      · simp only [if_pos hemit] at h
        split at h
        · simp only [Option.some.injEq] at h
          subst h
          exact hnew
        · exact ih _ _ _ _ _ h hnew
      · simp only [if_neg hemit] at h
        split at h
        · simp only [Option.some.injEq] at h
          subst h
          exact hacc
        · exact ih _ _ _ _ _ h hacc
    · simp only [chunkLoopGoSpans, if_neg hst, Option.some.injEq] at h
      subst h
      exact hacc

theorem coveredBy_append (acc l : List (Nat × ChunkRec)) (i : Nat)
    (h : coveredBy acc i) : coveredBy (acc ++ l) i := by
  obtain ⟨p, hp, h1, h2⟩ := h
  exact ⟨p, List.mem_append.mpr (Or.inl hp), h1, h2⟩

/-- Main coverage invariant of the chunking loop at the default
configuration: the emitted spans cover every position of the text. -/
theorem chunkLoopGoSpans_cover (clean : List Char)
    (hchain : List.Chain' WSpair clean)
    (hbig : 2000 < clean.length)
    (hhead : ∀ c, clean[0]? = some c → isWS c = false)
    (hlast : ∀ c, clean[clean.length - 1]? = some c → isWS c = false) :
    ∀ (fuel st ci : Nat) (le : Option Nat) (acc : List (Nat × ChunkRec)),
      clean.length - st < fuel →
      (∀ L, le = some L → L ≤ st + 200) →
      ((st = 0 ∧ acc = []) ∨
        (st + 200 ≤ clean.length ∧
          ∀ i, i < st + 199 → i < clean.length → coveredBy acc i) ∨
        (∀ i, i < clean.length → coveredBy acc i)) →
      ∃ out, chunkLoopGoSpans clean 2000 200 fuel st ci le acc = some out ∧
        ∀ i, i < clean.length → coveredBy out i := by
  intro fuel
  induction fuel with
  | zero => intro st ci le acc hf _ _; omega
  | succ fuel ih =>
    intro st ci le acc hf hle hinv
    by_cases hst : st < clean.length
    case neg =>
      refine ⟨acc, by simp [chunkLoopGoSpans, hst], ?_⟩
      intro i hi
      rcases hinv with ⟨h0, _⟩ | ⟨_, hcov⟩ | hcov
      · omega
      · exact hcov i (by omega) hi
      · exact hcov i hi
    case pos =>
      simp only [chunkLoopGoSpans, if_pos hst]
      obtain ⟨e, hedef⟩ : ∃ e, computeEndIndex clean 2000 st = e := ⟨_, rfl⟩
      rw [hedef]
      have hele : e ≤ clean.length := hedef ▸ computeEndIndex_le clean 2000 st hst
      have hegt : st < e := hedef ▸ computeEndIndex_gt clean 2000 st (by omega) hst
      have hd : e = clean.length ∨ (st + 1801 ≤ e ∧ e ≤ st + 2100) :=
        hedef ▸ computeEndIndex_default clean st
      have hlastc : e = clean.length → ∀ c, clean[e - 1]? = some c → isWS c = false := by
        intro hlen c hc
        rw [hlen] at hc
        exact hlast c hc
      have hfull : ∀ (hcov : ∀ i, i < clean.length → coveredBy acc i),
          (∀ i, i < clean.length →
            coveredBy (if (trimWS ((clean.drop st).take (e - st))).length ≠ 0 then
              acc ++ [(st + (((clean.drop st).take (e - st)).takeWhile isWS).length,
                ⟨trimWS ((clean.drop st).take (e - st)),
                 ((trimWS ((clean.drop st).take (e - st))).length + charsPerToken - 1)
                   / charsPerToken, ci⟩)] else acc) i) := by
        intro hcov i hi
        split
        · exact coveredBy_append _ _ _ (hcov i hi)
        · exact hcov i hi
      rcases hinv with ⟨hst0, hacc0⟩ | ⟨hs200, hcov⟩ | hcov
      -- ===== fresh start: st = 0, acc = [] =====
      · subst hst0
        subst hacc0
        have h2e : 0 + 2 ≤ e := by rcases hd with h | h <;> omega
        obtain ⟨a, b, haL, ha1, hb1, heq, hlen2, haz, hbz⟩ :=
          trim_slice clean 0 e hchain h2e hele
        have he200 : 0 + 200 ≤ e := by rcases hd with h | h <;> omega
        have ha0 : a = 0 := by
          have h0lt : 0 < clean.length := by omega
          have h0e : clean[0]? = some clean[0] := List.getElem?_eq_getElem h0lt
          exact haz _ h0e (hhead _ h0e)
        have hemit : (trimWS ((clean.drop 0).take (e - 0))).length ≠ 0 := by
          rw [hlen2]; omega
        simp only [if_pos hemit]
        have hlw : (((clean.drop 0).take (e - 0)).takeWhile isWS).length = a := by
          rw [haL]; rfl
        have hcov2 : ∀ i, i < e - b →
            coveredBy (([] : List (Nat × ChunkRec)) ++
              [((0 : Nat) + (((clean.drop 0).take (e - 0)).takeWhile isWS).length,
              ⟨trimWS ((clean.drop 0).take (e - 0)),
               ((trimWS ((clean.drop 0).take (e - 0))).length + charsPerToken - 1)
                 / charsPerToken, ci⟩)]) i := by
          intro i hi
          simp only [List.nil_append]
          refine ⟨_, List.mem_singleton_self _, ?_, ?_⟩
          · simp only
            omega
          · simp only
            rw [hlw, hlen2]
            omega
        by_cases hbrk : le = some e
        · have hbe : e ≤ 0 + 200 := hle e hbrk
          have helen : e = clean.length := by rcases hd with h | h <;> omega
          have hb0 : b = 0 := by
            have hlt2 : e - 1 < clean.length := by omega
            have hlc : clean[e - 1]? = some clean[e - 1] :=
              List.getElem?_eq_getElem hlt2
            exact hbz _ hlc (hlastc helen _ hlc)
          rw [if_pos hbrk]
          refine ⟨_, rfl, ?_⟩
          intro i hi
          exact hcov2 i (by omega)
        · rw [if_neg hbrk]
          refine ih _ _ _ _ ?_ ?_ ?_
          · split <;> omega
          · intro L hL
            simp only [Option.some.injEq] at hL
            subst hL
            split <;> omega
          · by_cases hstall : e - 200 ≤ 0
            · rw [if_pos hstall]
              have helen : e = clean.length := by rcases hd with h | h <;> omega
              have hb0 : b = 0 := by
                have hlt2 : e - 1 < clean.length := by omega
                have hlc : clean[e - 1]? = some clean[e - 1] :=
                  List.getElem?_eq_getElem hlt2
                exact hbz _ hlc (hlastc helen _ hlc)
              refine Or.inr (Or.inr ?_)
              intro i hi
              exact hcov2 i (by omega)
            · rw [if_neg hstall]
              by_cases helen : e = clean.length
              · have hb0 : b = 0 := by
                  have hlt2 : e - 1 < clean.length := by omega
                  have hlc : clean[e - 1]? = some clean[e - 1] :=
                    List.getElem?_eq_getElem hlt2
                  exact hbz _ hlc (hlastc helen _ hlc)
                refine Or.inr (Or.inr ?_)
                intro i hi
                exact hcov2 i (by omega)
              · refine Or.inr (Or.inl ⟨by omega, ?_⟩)
                intro i hi hilen
                exact hcov2 i (by omega)
      -- ===== mid-run invariant =====
      · have h2e : st + 2 ≤ e := by rcases hd with h | h <;> omega
        obtain ⟨a, b, haL, ha1, hb1, heq, hlen2, haz, hbz⟩ :=
          trim_slice clean st e hchain h2e hele
        have he200 : st + 200 ≤ e := by rcases hd with h | h <;> omega
        have hemit : (trimWS ((clean.drop st).take (e - st))).length ≠ 0 := by
          rw [hlen2]; omega
        simp only [if_pos hemit]
        have hlw : (((clean.drop st).take (e - st)).takeWhile isWS).length = a := by
          rw [haL]; rfl
        have hcov2 : ∀ i, i < e - b → i < clean.length →
            coveredBy (acc ++ [(st + (((clean.drop st).take (e - st)).takeWhile isWS).length,
              ⟨trimWS ((clean.drop st).take (e - st)),
               ((trimWS ((clean.drop st).take (e - st))).length + charsPerToken - 1)
                 / charsPerToken, ci⟩)]) i := by
          intro i hi hilen
          by_cases hsmall : i < st + 199
          · exact coveredBy_append _ _ _ (hcov i hsmall hilen)
          · refine ⟨_, List.mem_append.mpr (Or.inr (List.mem_singleton_self _)), ?_, ?_⟩
            · simp only
              rw [hlw]
              omega
            · simp only
              rw [hlw, hlen2]
              omega
        by_cases hbrk : le = some e
        · have hbe : e ≤ st + 200 := hle e hbrk
          have helen : e = clean.length := by rcases hd with h | h <;> omega
          have hb0 : b = 0 := by
            have hlt2 : e - 1 < clean.length := by omega
            have hlc : clean[e - 1]? = some clean[e - 1] :=
              List.getElem?_eq_getElem hlt2
            exact hbz _ hlc (hlastc helen _ hlc)
          rw [if_pos hbrk]
          refine ⟨_, rfl, ?_⟩
          intro i hi
          exact hcov2 i (by omega) hi
        · rw [if_neg hbrk]
          refine ih _ _ _ _ ?_ ?_ ?_
          · split <;> omega
          · intro L hL
            simp only [Option.some.injEq] at hL
            subst hL
            split <;> omega
          · by_cases hstall : e - 200 ≤ st
            · rw [if_pos hstall]
              have helen : e = clean.length := by rcases hd with h | h <;> omega
              have hb0 : b = 0 := by
                have hlt2 : e - 1 < clean.length := by omega
                have hlc : clean[e - 1]? = some clean[e - 1] :=
                  List.getElem?_eq_getElem hlt2
                exact hbz _ hlc (hlastc helen _ hlc)
              refine Or.inr (Or.inr ?_)
              intro i hi
              exact hcov2 i (by omega) hi
            · rw [if_neg hstall]
              by_cases helen : e = clean.length
              · have hb0 : b = 0 := by
                  have hlt2 : e - 1 < clean.length := by omega
                  have hlc : clean[e - 1]? = some clean[e - 1] :=
                    List.getElem?_eq_getElem hlt2
                  exact hbz _ hlc (hlastc helen _ hlc)
                refine Or.inr (Or.inr ?_)
                intro i hi
                exact hcov2 i (by omega) hi
              · refine Or.inr (Or.inl ⟨by omega, ?_⟩)
                intro i hi hilen
                exact hcov2 i (by omega) hilen
      -- ===== full coverage already reached =====
      · by_cases hbrk : le = some e
        · rw [if_pos hbrk]
          exact ⟨_, rfl, hfull hcov⟩
        · rw [if_neg hbrk]
          refine ih _ _ _ _ ?_ ?_ (Or.inr (Or.inr (hfull hcov)))
          · split <;> omega
          · intro L hL
            simp only [Option.some.injEq] at hL
            subst hL
            split <;> omega

/-! ## Claims C3-C6: the Chunker -/

theorem ceil_div_charsPerToken (n : Nat) :
    (((n + charsPerToken - 1) / charsPerToken : Nat) : ℤ)
      = Int.ceil ((n : ℚ) / (charsPerToken : ℚ)) := by
  have hch : charsPerToken = 4 := rfl
  rw [hch]
  obtain ⟨k, hk⟩ : ∃ k, (n + 4 - 1) / 4 = k := ⟨_, rfl⟩
  rw [hk]
  have hk1 : n ≤ 4 * k := by omega
  have hk2 : 4 * k < n + 4 := by omega
  rw [eq_comm, Int.ceil_eq_iff]
  have h1q : (n : ℚ) ≤ 4 * (k : ℚ) := by exact_mod_cast hk1
  have h2q : 4 * (k : ℚ) < (n : ℚ) + 4 := by exact_mod_cast hk2
  constructor
  · show ((k : ℤ) : ℚ) - 1 < (n : ℚ) / ((4 : ℕ) : ℚ)
    rw [show (((4 : ℕ)) : ℚ) = (4 : ℚ) by norm_num]
    rw [lt_div_iff₀ (by norm_num : (0:ℚ) < 4)]
    push_cast
    linarith
  · show (n : ℚ) / ((4 : ℕ) : ℚ) ≤ ((k : ℤ) : ℚ)
    rw [show (((4 : ℕ)) : ℚ) = (4 : ℚ) by norm_num]
    rw [div_le_iff₀ (by norm_num : (0:ℚ) < 4)]
    push_cast
    linarith

/-- C3 (amended): for every input text whose normalization is non-empty and
fits in the `maxTokens × charsPerToken` character budget, the generator
yields exactly one segment: index 0, content the whole normalized text,
approxTokens the ceiling of length / charsPerToken.  (The original claim is
false for empty/whitespace-only input, which yields zero segments —
see the counterexample.) -/
theorem spec_C3_short_circuit (text : List Char) (maxTokens overlapTokens : Nat)
    (h1 : (trimWS text).length ≠ 0)
    (h2 : (normalizeText text).length ≤ maxTokens * charsPerToken) :
    ∃ ch : ChunkRec,
      chunkTextGenerator text maxTokens overlapTokens = some [ch] ∧
      ch.index = 0 ∧
      ch.content = normalizeText text ∧
      (ch.tokens : ℤ) = Int.ceil ((ch.content.length : ℚ) / (charsPerToken : ℚ)) := by
  refine ⟨⟨normalizeText text,
    ((normalizeText text).length + charsPerToken - 1) / charsPerToken, 0⟩,
    ?_, rfl, rfl, ?_⟩
  · unfold chunkTextGenerator
    rw [if_neg h1]
    simp only
    rw [if_pos (show (trimWS (collapseWS text)).length ≤ maxTokens * charsPerToken from h2)]
    rfl
  · exact ceil_div_charsPerToken _

/-- C3 counterexample: the empty text has normalized length 0, within any
budget, yet the generator yields zero segments rather than exactly one. -/
theorem spec_C3_cex :
    (normalizeText []).length ≤ 500 * charsPerToken ∧
    ¬ ∃ ch : ChunkRec, chunkTextGenerator [] 500 50 = some [ch] := by
  refine ⟨by decide, ?_⟩
  rintro ⟨ch, h⟩
  have h0 : chunkTextGenerator [] 500 50 = some [] := rfl
  rw [h0] at h
  simp at h

/-- Witness for the amended C3 at a concrete input. -/
theorem spec_C3_short_circuit_witness :
    ∃ ch : ChunkRec,
      chunkTextGenerator ['h', 'o', 'l', 'a', ' ', ' ', 'm', 'u', 'n', 'd', 'o'] 500 50
        = some [ch] ∧
      ch.index = 0 ∧
      ch.content = normalizeText ['h', 'o', 'l', 'a', ' ', ' ', 'm', 'u', 'n', 'd', 'o'] ∧
      (ch.tokens : ℤ) = Int.ceil ((ch.content.length : ℚ) / (charsPerToken : ℚ)) :=
  spec_C3_short_circuit ['h', 'o', 'l', 'a', ' ', ' ', 'm', 'u', 'n', 'd', 'o'] 500 50
    (by decide) (by decide)

/-- C5: for every finite input and positive `maxTokens` the generator
terminates: the loop, given `cleanText.length + 1` iterations of fuel,
always finishes (the anti-stall guard advances `startIndex` strictly). -/
theorem spec_C5_termination (text : List Char) (maxTokens overlapTokens : Nat)
    (h : 1 ≤ maxTokens) :
    (chunkTextGenerator text maxTokens overlapTokens).isSome = true := by
  unfold chunkTextGenerator
  split
  · rfl
  · simp only
    split
    · rfl
    · refine chunkLoopGo_isSome _ _ _ ?_ _ _ _ _ _ (by omega)
      have hch : charsPerToken = 4 := rfl
      rw [hch]
      omega

/-- Witness for C5: the adversarial input from the spec (10000 repetitions
of a single non-space character, `maxTokens = 10`) terminates. -/
theorem spec_C5_termination_witness :
    (chunkTextGenerator (List.replicate 10000 'a') 10 50).isSome = true :=
  spec_C5_termination (List.replicate 10000 'a') 10 50 (by decide)

/-- C6 (amended): every yielded segment's content has at most
`maxTokens × charsPerToken + 100` characters — the `+ 100` slack is the
forward part of the break-search window, which the original claim omits. -/
theorem spec_C6_chunk_bound (text : List Char) (maxTokens overlapTokens : Nat)
    (out : List ChunkRec)
    (h : chunkTextGenerator text maxTokens overlapTokens = some out) :
    ∀ ch ∈ out, ch.content.length ≤ maxTokens * charsPerToken + 100 := by
  unfold chunkTextGenerator at h
  split at h
  · simp only [Option.some.injEq] at h
    subst h
    simp
  · simp only at h
    split at h
    · rename_i hle
      simp only [Option.some.injEq] at h
      subst h
      intro ch hch
      simp only [List.mem_singleton] at hch
      subst hch
      simp only
      omega
    · exact chunkLoopGo_content_bound _ _ _ _ _ _ _ _ _ h (by simp)

/-- C6 counterexample: with `maxTokens = 1` (character budget 4) the input
`"aaaaaaaa a"` yields a segment of 8 characters, exceeding the claimed
`maxTokens × charsPerToken` bound — the break search may select a break up
to 100 characters beyond the budget. -/
theorem spec_C6_cex :
    ∃ ch ∈ (chunkTextGenerator ['a', 'a', 'a', 'a', 'a', 'a', 'a', 'a', ' ', 'a'] 1 50).getD [],
      1 * charsPerToken < ch.content.length := by decide

/-- C4: at the default configuration (`maxTokens = 500`,
`overlapTokens = 50`) every character position of the normalized text lies
inside at least one yielded segment, each segment's content being a
contiguous slice of the normalized text. -/
theorem spec_C4_coverage (text : List Char) (i : Nat)
    (hi : i < (normalizeText text).length) :
    ∃ ch ∈ (chunkTextGenerator text configMaxTokens configOverlapTokens).getD [],
      ∃ s : Nat, ch.content = ((normalizeText text).drop s).take ch.content.length ∧
        s ≤ i ∧ i < s + ch.content.length := by
  by_cases h0 : (trimWS text).length = 0
  · have hnil : normalizeText text = [] :=
      normalizeText_eq_nil_of_trim_nil text (List.length_eq_zero.mp h0)
    rw [hnil] at hi
    simp at hi
  · unfold chunkTextGenerator
    rw [if_neg h0]
    simp only
    by_cases hle : (trimWS (collapseWS text)).length ≤ configMaxTokens * charsPerToken
    · rw [if_pos hle]
      refine ⟨_, List.mem_singleton_self _, 0, ?_, by omega, ?_⟩
      · simp only
        rw [List.drop_zero]
        exact (List.take_length _).symm
      · simp only
        show i < 0 + (normalizeText text).length
        omega
    · rw [if_neg hle]
      have hbig : 2000 < (trimWS (collapseWS text)).length := by
        have hmc : configMaxTokens * charsPerToken = 2000 := rfl
        omega
      have hchain : List.Chain' WSpair (trimWS (collapseWS text)) :=
        chain_normalizeText text
      have hhead : ∀ c, (trimWS (collapseWS text))[0]? = some c → isWS c = false := by
        intro c hc
        refine trimWS_head_not_ws (collapseWS text) c ?_
        rw [List.head?_eq_getElem?]
        exact hc
      have hlast : ∀ c, (trimWS (collapseWS text))[(trimWS (collapseWS text)).length - 1]?
          = some c → isWS c = false := by
        intro c hc
        refine trimWS_getLast_not_ws (collapseWS text) c ?_
        rw [List.getLast?_eq_getElem?]
        exact hc
      obtain ⟨out, hout, hcov⟩ := chunkLoopGoSpans_cover (trimWS (collapseWS text))
        hchain hbig hhead hlast ((trimWS (collapseWS text)).length + 1) 0 0 none []
        (by omega) (by intro L hL; simp at hL) (Or.inl ⟨rfl, rfl⟩)
      have hvalid := chunkLoopGoSpans_valid (trimWS (collapseWS text)) 2000 200
        _ _ _ _ _ _ hout (by intro p hp; simp at hp)
      have hag := chunkLoopGoSpans_agree (trimWS (collapseWS text)) 2000 200
        ((trimWS (collapseWS text)).length + 1) 0 0 none []
      have hmc : configMaxTokens * charsPerToken = 2000 := rfl
      have hoc : configOverlapTokens * charsPerToken = 200 := rfl
      rw [hmc, hoc]
      rw [show (([] : List (Nat × ChunkRec)).map Prod.snd) = ([] : List ChunkRec)
        from rfl] at hag
      rw [hag, hout]
      obtain ⟨p, hp, hp1, hp2⟩ := hcov i hi
      exact ⟨p.2, List.mem_map_of_mem _ hp, p.1, hvalid p hp, hp1, hp2⟩

/-- Witness for C4 at a concrete input and position. -/
theorem spec_C4_coverage_witness :
    ∃ ch ∈ (chunkTextGenerator ['h', 'o', 'l', 'a'] configMaxTokens
        configOverlapTokens).getD [],
      ∃ s : Nat,
        ch.content = ((normalizeText ['h', 'o', 'l', 'a']).drop s).take ch.content.length ∧
        s ≤ 2 ∧ 2 < s + ch.content.length :=
  spec_C4_coverage ['h', 'o', 'l', 'a'] 2 (by decide)

/-- Witness for the amended C6 at a concrete input and chunk. -/
theorem spec_C6_chunk_bound_witness :
    (ChunkRec.mk ['a', 'b'] 1 0).content.length ≤ 1 * charsPerToken + 100 :=
  spec_C6_chunk_bound ['a', 'b', ' ', 'c', 'd'] 1 0
    [ChunkRec.mk ['a', 'b'] 1 0, ChunkRec.mk ['c', 'd'] 1 1] (by decide)
    (ChunkRec.mk ['a', 'b'] 1 0) (by decide)

/-! ## Claim C7: the embedding batch client -/

theorem embedBatchLoop_map (f : List Char → List ℚ) :
    ∀ (l : List (List Char)),
      embedBatchLoop (fun batch => batch.map f) l = (l.map f, (l.length + 99) / 100)
  | [] => by simp [embedBatchLoop]
  | t :: ts => by
    rw [embedBatchLoop]
    rw [embedBatchLoop_map f ((t :: ts).drop 100)]
    refine Prod.ext ?_ ?_
    · simp only
      rw [← List.map_append, List.take_append_drop]
    · simp only [List.length_drop, List.length_cons]
      omega
termination_by l => l.length
decreasing_by simp; omega

/-- C7: `generateEmbeddingsBatch` with a provider returning one vector per
input removes empty and whitespace-only entries, truncates each survivor to
32000 characters, calls the provider once per sub-batch of at most 100
entries (`ceil(n / 100)` calls, zero for an empty survivor list), and
returns the vectors positionally matching the surviving entries in their
original order. -/
theorem spec_C7_embed_batch (f : List Char → List ℚ) (texts : List (List Char)) :
    generateEmbeddingsBatch (fun batch => batch.map f) texts
      = (((texts.map trimWS).filter (fun t => 0 < t.length)).map
           (fun t => f (t.take 32000)),
         (((texts.map trimWS).filter (fun t => 0 < t.length)).length + 99) / 100) := by
  unfold generateEmbeddingsBatch
  split
  · rename_i h
    have ht : texts = [] := List.length_eq_zero.mp h
    subst ht
    simp
  · simp only
    split
    · rename_i h2
      rw [List.length_map] at h2
      have hnil : (texts.map trimWS).filter (fun t => 0 < t.length) = [] :=
        List.length_eq_zero.mp h2
      rw [hnil]
      simp
    · rw [embedBatchLoop_map]
      rw [List.map_map, List.length_map]
      rfl

/-! ## Claims C1, C8, C9, C10: the ingestion orchestrators -/

theorem length_filter_split (p : ChunkRec → Bool) (l : List ChunkRec) :
    (l.filter p).length + (l.filter (fun c => !(p c))).length = l.length := by
  induction l with
  | nil => simp
  | cons a l ih =>
    by_cases hp : p a = true
    · simp [List.filter_cons, hp]
      omega
    · simp [List.filter_cons, hp, Bool.not_eq_true] at ih ⊢
      omega

theorem processRecursoChunksLoop_go (embedOk : Nat → Bool) (chunks : List ChunkRec) :
    ∀ (l : List ChunkRec) (rows : List SegRow) (comp errs : Nat),
      (∀ c ∈ l, c ∈ chunks) →
      l.foldl
        (fun st c =>
          match chunks.find? (fun c2 => c2.index == c.index) with
          | none => (st.1 ++ [⟨c.index, c.content, c.tokens, .error⟩], st.2.1, st.2.2 + 1)
          | some chunkData =>
            if embedOk chunkData.index then
              (st.1 ++ [⟨c.index, c.content, c.tokens, .completed⟩], st.2.1 + 1, st.2.2)
            else
              (st.1 ++ [⟨c.index, c.content, c.tokens, .error⟩], st.2.1, st.2.2 + 1))
        (rows, comp, errs)
      = (rows ++ l.map (fun c =>
           if embedOk c.index then SegRow.mk c.index c.content c.tokens .completed
           else SegRow.mk c.index c.content c.tokens .error),
         comp + (l.filter (fun c => embedOk c.index)).length,
         errs + (l.filter (fun c => !(embedOk c.index))).length) := by
  intro l
  induction l with
  | nil => intro rows comp errs hmem; simp
  | cons c l ih =>
    intro rows comp errs hmem
    have hc : c ∈ chunks := hmem c (by simp)
    have hfind : ∃ cd, chunks.find? (fun c2 => c2.index == c.index) = some cd := by
      rcases hf : chunks.find? (fun c2 => c2.index == c.index) with _ | cd
      · rw [List.find?_eq_none] at hf
        exact absurd (by simp : (fun c2 => c2.index == c.index) c = true) (hf c hc)
      · exact ⟨cd, hf⟩
    obtain ⟨cd, hcd⟩ := hfind
    have hidx : cd.index = c.index := by
      have := List.find?_some hcd
      simpa using this
    simp only [List.foldl_cons, hcd]
    by_cases hok : embedOk c.index = true
    · rw [if_pos (by rw [hidx]; exact hok)]
      rw [ih _ _ _ (fun x hx => hmem x (by simp [hx]))]
      simp [List.filter_cons, hok]
      omega
    · rw [if_neg (by rw [hidx]; exact hok)]
      rw [ih _ _ _ (fun x hx => hmem x (by simp [hx]))]
      simp [List.filter_cons, hok, Bool.not_eq_true]
      omega

theorem processRecursoChunksLoop_eq (embedOk : Nat → Bool) (chunks : List ChunkRec) :
    processRecursoChunksLoop embedOk chunks
      = (chunks.map (fun c =>
           if embedOk c.index then SegRow.mk c.index c.content c.tokens .completed
           else SegRow.mk c.index c.content c.tokens .error),
         (chunks.filter (fun c => embedOk c.index)).length,
         (chunks.filter (fun c => !(embedOk c.index))).length) := by
  unfold processRecursoChunksLoop
  have := processRecursoChunksLoop_go embedOk chunks chunks [] 0 0 (fun c hc => hc)
  simpa using this

theorem splitTextIntoChunks_of_trim_nil (text : List Char)
    (h : (trimWS text).length = 0) :
    splitTextIntoChunks text = [] := by
  unfold splitTextIntoChunks chunkTextGenerator
  rw [if_pos h]
  rfl

theorem finalStatusRule_iff (comp errs total : Nat) (hsum : comp + errs = total)
    (hpos : 0 < total) :
    ((if errs = 0 then EmbStatus.completed
      else if 0 < comp then EmbStatus.completed else EmbStatus.error)
        = EmbStatus.completed ↔ 0 < comp) ∧
    ((if errs = 0 then EmbStatus.completed
      else if 0 < comp then EmbStatus.completed else EmbStatus.error)
        = EmbStatus.error ↔ comp = 0) := by
  by_cases hz : errs = 0
  · rw [if_pos hz]
    refine ⟨⟨fun _ => by omega, fun _ => rfl⟩, ⟨fun h => absurd h (by simp), ?_⟩⟩
    intro h
    exfalso
    omega
  · rw [if_neg hz]
    by_cases hcp : 0 < comp
    · rw [if_pos hcp]
      refine ⟨⟨fun _ => hcp, fun _ => rfl⟩, ⟨fun h => absurd h (by simp), ?_⟩⟩
      intro h
      exfalso
      omega
    · rw [if_neg hcp]
      exact ⟨⟨fun h => absurd h (by simp), fun h => absurd h hcp⟩,
             ⟨fun _ => by omega, fun _ => rfl⟩⟩

theorem filter_length_pos_iff (p : ChunkRec → Bool) (l : List ChunkRec) :
    0 < (l.filter p).length ↔ ∃ c ∈ l, p c = true := by
  rw [List.length_pos, Ne, List.filter_eq_nil_iff]
  push_neg
  simp

theorem filter_length_eq_zero_iff (p : ChunkRec → Bool) (l : List ChunkRec) :
    (l.filter p).length = 0 ↔ ∀ c ∈ l, ¬ p c = true := by
  rw [List.length_eq_zero, List.filter_eq_nil_iff]

theorem filter_length_pos_iff_row (p : SegRow → Bool) (l : List SegRow) :
    0 < (l.filter p).length ↔ ∃ r ∈ l, p r = true := by
  rw [List.length_pos, Ne, List.filter_eq_nil_iff]
  push_neg
  simp

theorem filter_length_eq_zero_iff_row (p : SegRow → Bool) (l : List SegRow) :
    (l.filter p).length = 0 ↔ ∀ r ∈ l, ¬ p r = true := by
  rw [List.length_eq_zero, List.filter_eq_nil_iff]

theorem batchUpdateRows_status :
    ∀ (chunks : List ChunkRec) (embs : List (List ℚ)),
      ∀ r ∈ batchUpdateRows chunks embs,
        r.embeddingStatus = .completed ∨ r.embeddingStatus = .error
  | [], _ => by
    intro r hr
    simp [batchUpdateRows] at hr
  | c :: cs, [] => by
    intro r hr
    simp only [batchUpdateRows, List.mem_cons] at hr
    rcases hr with h | h
    · subst h
      exact Or.inr rfl
    · exact batchUpdateRows_status cs [] r h
  | c :: cs, e :: es => by
    intro r hr
    simp only [batchUpdateRows, List.mem_cons] at hr
    rcases hr with h | h
    · subst h
      exact Or.inl rfl
    · exact batchUpdateRows_status cs es r h

theorem embedBatchLoop_short (provider : List (List Char) → List (List ℚ))
    (l : List (List Char)) (hne : l ≠ []) (hlen : l.length ≤ 100) :
    embedBatchLoop provider l = (provider l, 1) := by
  match l with
  | [] => exact absurd rfl hne
  | t :: ts =>
    rw [embedBatchLoop]
    have hdrop : (t :: ts).drop 100 = [] := List.drop_eq_nil_of_le hlen
    have htake : (t :: ts).take 100 = t :: ts := List.take_of_length_le hlen
    rw [hdrop, htake]
    simp [embedBatchLoop]

theorem dropWhile_isWS_replicate (n : Nat) :
    (List.replicate n 'a').dropWhile isWS = List.replicate n 'a' := by
  cases n with
  | zero => simp
  | succ m =>
    rw [List.replicate_succ, List.dropWhile_cons]
    rw [if_neg (by decide)]

theorem trimWS_replicate (n : Nat) :
    trimWS (List.replicate n 'a') = List.replicate n 'a' := by
  unfold trimWS
  rw [dropWhile_isWS_replicate, List.reverse_replicate, dropWhile_isWS_replicate,
    List.reverse_replicate]

theorem collapseWSAux_replicate (n : Nat) :
    ∀ b, collapseWSAux b (List.replicate n 'a') = List.replicate n 'a' := by
  induction n with
  | zero => intro b; simp [collapseWSAux]
  | succ m ih =>
    intro b
    rw [List.replicate_succ]
    simp only [collapseWSAux]
    rw [if_neg (by decide)]
    rw [ih false]

theorem collapseWS_replicate (n : Nat) :
    collapseWS (List.replicate n 'a') = List.replicate n 'a' :=
  collapseWSAux_replicate n false

theorem lastMatch1_replicate : ∀ n, lastMatch1 isWS (List.replicate n 'a') = none
  | 0 => rfl
  | n + 1 => by
    rw [List.replicate_succ]
    simp only [lastMatch1]
    rw [lastMatch1_replicate n]
    simp [(by decide : isWS 'a' = false)]

theorem lastMatch2_replicate (p : Char → Char → Bool) (hp : p 'a' 'a' = false) :
    ∀ n, lastMatch2 p (List.replicate n 'a') = none
  | 0 => rfl
  | 1 => rfl
  | n + 2 => by
    rw [List.replicate_succ, List.replicate_succ]
    simp only [lastMatch2]
    rw [← List.replicate_succ, lastMatch2_replicate p hp (n + 1)]
    simp [hp]

theorem bestBreakOf_replicate (n ss : Nat) :
    bestBreakOf (List.replicate n 'a') ss = none := by
  unfold bestBreakOf
  rw [lastMatch2_replicate _ (by decide) n, lastMatch2_replicate _ (by decide) n,
    lastMatch2_replicate _ (by decide) n, lastMatch2_replicate _ (by decide) n,
    lastMatch1_replicate n]

theorem computeEndIndex_replicate (N maxChars st : Nat) :
    computeEndIndex (List.replicate N 'a') maxChars st
      = if N ≤ st + maxChars then N else st + maxChars := by
  unfold computeEndIndex
  rw [List.length_replicate]
  by_cases h : N ≤ st + maxChars
  · rw [if_pos h, if_pos h]
  · rw [if_neg h, if_neg h]
    simp only
    rw [List.drop_replicate, List.take_replicate, bestBreakOf_replicate]

theorem chunkLoopGo_replicate_step (N mc oc fuel st ci e : Nat) (le : Option Nat)
    (acc : List ChunkRec) (hst : st < N) (hmc : 0 < mc) (he : e = min (st + mc) N) :
    chunkLoopGo (List.replicate N 'a') mc oc (fuel + 1) st ci le acc
      = if le = some e then
          some (acc ++ [⟨List.replicate (e - st) 'a',
            (e - st + charsPerToken - 1) / charsPerToken, ci⟩])
        else chunkLoopGo (List.replicate N 'a') mc oc fuel
          (if e - oc ≤ st then e else e - oc) (ci + 1) (some e)
          (acc ++ [⟨List.replicate (e - st) 'a',
            (e - st + charsPerToken - 1) / charsPerToken, ci⟩]) := by
  have hite : (if N ≤ st + mc then N else st + mc) = e := by
    rcases le_or_lt N (st + mc) with h | h
    · rw [if_pos h]
      omega
    · rw [if_neg (by omega)]
      omega
  rw [chunkLoopGo.eq_2]
  rw [if_pos (show st < (List.replicate N 'a').length from by
    rw [List.length_replicate]; exact hst)]
  rw [computeEndIndex_replicate, hite]
  simp only
  simp only [List.drop_replicate, List.take_replicate, trimWS_replicate,
    List.length_replicate]
  have hm : min (e - st) (N - st) = e - st := by omega
  simp only [hm]
  rw [if_pos (show e - st ≠ 0 from by omega), if_pos (show e - st ≠ 0 from by omega)]

theorem splitTextIntoChunks_replicate_2100 :
    splitTextIntoChunks (List.replicate 2100 'a')
      = [⟨List.replicate 2000 'a', 500, 0⟩, ⟨List.replicate 300 'a', 75, 1⟩,
         ⟨List.replicate 200 'a', 50, 2⟩] := by
  have step1 := chunkLoopGo_replicate_step 2100 2000 200 2100 0 0 2000 none []
    (by norm_num) (by norm_num) (by norm_num)
  have step2 := chunkLoopGo_replicate_step 2100 2000 200 2099 1800 1 2100 (some 2000)
    [⟨List.replicate 2000 'a', 500, 0⟩] (by norm_num) (by norm_num) (by norm_num)
  have step3 := chunkLoopGo_replicate_step 2100 2000 200 2098 1900 2 2100 (some 2100)
    [⟨List.replicate 2000 'a', 500, 0⟩, ⟨List.replicate 300 'a', 75, 1⟩]
    (by norm_num) (by norm_num) (by norm_num)
  rw [if_neg (by decide)] at step1
  rw [if_neg (by decide)] at step2
  rw [if_pos rfl] at step3
  norm_num [charsPerToken] at step1 step2 step3
  unfold splitTextIntoChunks chunkTextGenerator
  rw [trimWS_replicate, List.length_replicate]
  rw [if_neg (by norm_num)]
  simp only
  rw [collapseWS_replicate, trimWS_replicate, List.length_replicate]
  rw [if_neg (by norm_num [configMaxTokens, charsPerToken])]
  norm_num [configMaxTokens, configOverlapTokens, charsPerToken]
  rw [show (2101 : Nat) = 2100 + 1 from rfl] at step1 ⊢
  rw [step1, step2, step3]
  rfl

theorem assembleFullText_replicate_2100 :
    assembleFullText (some (List.replicate 2100 'a')) none none
      = List.replicate 2100 'a' := by
  unfold assembleFullText
  simp only [List.filterMap_cons, id, List.filterMap_nil, List.filter_cons,
    List.filter_nil, List.length_replicate]
  rw [if_pos (by norm_num)]
  simp [List.intercalate, List.intersperse]

theorem emb_cex_eval :
    generateEmbeddingsBatch (fun _ => [[(0 : ℚ)]])
      (([⟨List.replicate 2000 'a', 500, 0⟩, ⟨List.replicate 300 'a', 75, 1⟩,
         ⟨List.replicate 200 'a', 50, 2⟩] : List ChunkRec).map (fun c => c.content))
      = ([[(0 : ℚ)]], 1) := by
  rw [show (([⟨List.replicate 2000 'a', 500, 0⟩, ⟨List.replicate 300 'a', 75, 1⟩,
       ⟨List.replicate 200 'a', 50, 2⟩] : List ChunkRec).map (fun c => c.content))
      = [List.replicate 2000 'a', List.replicate 300 'a', List.replicate 200 'a']
    from rfl]
  unfold generateEmbeddingsBatch
  rw [if_neg (by decide)]
  simp only
  rw [show ((([List.replicate 2000 'a', List.replicate 300 'a',
        List.replicate 200 'a'].map trimWS).filter
          (fun t => 0 < t.length)).map (fun t => t.take 32000))
      = [List.replicate 2000 'a', List.replicate 300 'a', List.replicate 200 'a']
    from by
      simp only [List.map_cons, List.map_nil, trimWS_replicate, List.filter_cons,
        List.filter_nil, List.length_replicate]
      norm_num]
  rw [if_neg (by decide)]
  rw [embedBatchLoop_short _ _ (by decide) (by decide)]

set_option maxHeartbeats 1000000 in
/-- C1 (amended): when segments were created (the chunk list is non-empty) and
every segment's embedding was attempted (no unhandled fault), the part_005
per-chunk orchestrator and the streaming orchestrator of recursos.js mark the
document `completed` exactly when at least one segment embedding succeeded and
`error` exactly when all failed; the batch orchestrator of recursos.js
(first file version) instead marks the document `completed` exactly when every
segment row ended `completed` and `error` exactly when some segment row ended
`error` — a partial success is `error` there. -/
theorem spec_C1_document_status (titulo descripcion contenido : Option (List Char))
    (embedOk : Nat → Bool) (outcome : Nat → StreamOutcome)
    (provider : List (List Char) → List (List ℚ))
    (hchunks : splitTextIntoChunks (assembleFullText titulo descripcion contenido) ≠ []) :
    ((((processRecursoChunks titulo descripcion contenido embedOk none).1 = .completed ↔
       ∃ c ∈ splitTextIntoChunks (assembleFullText titulo descripcion contenido),
         embedOk c.index) ∧
     ((processRecursoChunks titulo descripcion contenido embedOk none).1 = .error ↔
       ∀ c ∈ splitTextIntoChunks (assembleFullText titulo descripcion contenido),
         ¬ embedOk c.index)) ∧
    (((processRecursoChunksWithContent (assembleFullText titulo descripcion contenido)
        outcome none).1 = .completed ↔
       ∃ c ∈ splitTextIntoChunks (assembleFullText titulo descripcion contenido),
         outcome c.index = .ok) ∧
     ((processRecursoChunksWithContent (assembleFullText titulo descripcion contenido)
        outcome none).1 = .error ↔
       ∀ c ∈ splitTextIntoChunks (assembleFullText titulo descripcion contenido),
         outcome c.index ≠ .ok))) ∧
    (((processRecursoChunksBatch provider titulo descripcion contenido none).1
        = .completed ↔
       ∀ row ∈ (processRecursoChunksBatch provider titulo descripcion contenido none).2,
         row.embeddingStatus = .completed) ∧
     ((processRecursoChunksBatch provider titulo descripcion contenido none).1
        = .error ↔
       ∃ row ∈ (processRecursoChunksBatch provider titulo descripcion contenido none).2,
         row.embeddingStatus = .error)) := by
  have htrim : ¬ (trimWS (assembleFullText titulo descripcion contenido)).length = 0 := by
    intro h
    exact hchunks (splitTextIntoChunks_of_trim_nil _ h)
  have hlen : splitTextIntoChunks (assembleFullText titulo descripcion contenido) ≠ [] :=
    hchunks
  have hpos : 0 < (splitTextIntoChunks (assembleFullText titulo descripcion
      contenido)).length := List.length_pos.mpr hlen
  refine ⟨⟨?_, ?_⟩, ?_⟩
  · unfold processRecursoChunks
    rw [if_neg htrim]
    simp only
    rw [if_neg (fun h => hlen (List.length_eq_zero.mp h))]
    rw [processRecursoChunksLoop_eq]
    simp only
    have hiff := finalStatusRule_iff
      ((splitTextIntoChunks (assembleFullText titulo descripcion contenido)).filter
        (fun c => embedOk c.index)).length
      ((splitTextIntoChunks (assembleFullText titulo descripcion contenido)).filter
        (fun c => !(embedOk c.index))).length
      (splitTextIntoChunks (assembleFullText titulo descripcion contenido)).length
      (length_filter_split _ _) hpos
    rw [hiff.1, hiff.2]
    constructor
    · exact filter_length_pos_iff _ _
    · exact filter_length_eq_zero_iff _ _
  · unfold processRecursoChunksWithContent
    rw [if_neg htrim]
    simp only
    rw [if_neg (fun h => hlen (List.length_eq_zero.mp h))]
    simp only
    have hiff := finalStatusRule_iff
      ((splitTextIntoChunks (assembleFullText titulo descripcion contenido)).filter
        (fun c => outcome c.index == .ok)).length
      ((splitTextIntoChunks (assembleFullText titulo descripcion contenido)).filter
        (fun c => !(outcome c.index == .ok))).length
      (splitTextIntoChunks (assembleFullText titulo descripcion contenido)).length
      (length_filter_split _ _) hpos
    rw [hiff.1, hiff.2]
    constructor
    · rw [filter_length_pos_iff]
      simp
    · rw [filter_length_eq_zero_iff]
      simp
  · unfold processRecursoChunksBatch
    rw [if_neg htrim]
    simp only
    rw [if_neg (fun h => hlen (List.length_eq_zero.mp h))]
    simp only
    by_cases hz :
      ((batchUpdateRows (splitTextIntoChunks (assembleFullText titulo descripcion contenido))
          ((generateEmbeddingsBatch provider
            ((splitTextIntoChunks (assembleFullText titulo descripcion contenido)).map
              (fun c => c.content))).1)).filter
        (fun r => r.embeddingStatus == EmbStatus.error)).length = 0
    · rw [if_pos hz]
      have hall : ∀ r ∈ batchUpdateRows
          (splitTextIntoChunks (assembleFullText titulo descripcion contenido))
          ((generateEmbeddingsBatch provider
            ((splitTextIntoChunks (assembleFullText titulo descripcion contenido)).map
              (fun c => c.content))).1),
          r.embeddingStatus = EmbStatus.completed := by
        intro r hr
        rcases batchUpdateRows_status _ _ r hr with h | h
        · exact h
        · exact absurd
            (by simp [h] : (fun r => r.embeddingStatus == EmbStatus.error) r = true)
            ((filter_length_eq_zero_iff_row _ _).mp hz r hr)
      refine ⟨⟨fun _ => hall, fun _ => rfl⟩, ?_, ?_⟩
      · intro h
        exact absurd h (by decide)
      · rintro ⟨r, hr, hre⟩
        rw [hall r hr] at hre
        exact absurd hre (by decide)
    · rw [if_neg hz]
      have hex : ∃ r ∈ batchUpdateRows
          (splitTextIntoChunks (assembleFullText titulo descripcion contenido))
          ((generateEmbeddingsBatch provider
            ((splitTextIntoChunks (assembleFullText titulo descripcion contenido)).map
              (fun c => c.content))).1),
          r.embeddingStatus = EmbStatus.error := by
        obtain ⟨r, hr, hp⟩ :=
          (filter_length_pos_iff_row _ _).mp (Nat.pos_of_ne_zero hz)
        exact ⟨r, hr, by simpa using hp⟩
      refine ⟨⟨?_, ?_⟩, fun _ => hex, fun _ => rfl⟩
      · intro h
        exact absurd h (by decide)
      · intro hall
        obtain ⟨r, hr, hre⟩ := hex
        rw [hall r hr] at hre
        exact absurd hre (by decide)

/-- Witness for C1 at a concrete document whose single chunk embeds
successfully in all three orchestrator variants. -/
theorem spec_C1_document_status_witness :
    ((((processRecursoChunks (some ['h', 'i']) none none (fun _ => true) none).1
        = .completed ↔
       ∃ c ∈ splitTextIntoChunks (assembleFullText (some ['h', 'i']) none none),
         (fun _ : Nat => true) c.index) ∧
     ((processRecursoChunks (some ['h', 'i']) none none (fun _ => true) none).1
        = .error ↔
       ∀ c ∈ splitTextIntoChunks (assembleFullText (some ['h', 'i']) none none),
         ¬ (fun _ : Nat => true) c.index)) ∧
    (((processRecursoChunksWithContent (assembleFullText (some ['h', 'i']) none none)
        (fun _ => .ok) none).1 = .completed ↔
       ∃ c ∈ splitTextIntoChunks (assembleFullText (some ['h', 'i']) none none),
         (fun _ : Nat => StreamOutcome.ok) c.index = .ok) ∧
     ((processRecursoChunksWithContent (assembleFullText (some ['h', 'i']) none none)
        (fun _ => .ok) none).1 = .error ↔
       ∀ c ∈ splitTextIntoChunks (assembleFullText (some ['h', 'i']) none none),
         (fun _ : Nat => StreamOutcome.ok) c.index ≠ .ok))) ∧
    (((processRecursoChunksBatch (fun l => l.map (fun _ => ([] : List ℚ)))
        (some ['h', 'i']) none none none).1 = .completed ↔
       ∀ row ∈ (processRecursoChunksBatch (fun l => l.map (fun _ => ([] : List ℚ)))
           (some ['h', 'i']) none none none).2,
         row.embeddingStatus = .completed) ∧
     ((processRecursoChunksBatch (fun l => l.map (fun _ => ([] : List ℚ)))
        (some ['h', 'i']) none none none).1 = .error ↔
       ∃ row ∈ (processRecursoChunksBatch (fun l => l.map (fun _ => ([] : List ℚ)))
           (some ['h', 'i']) none none none).2,
         row.embeddingStatus = .error)) :=
  spec_C1_document_status (some ['h', 'i']) none none (fun _ => true) (fun _ => .ok)
    (fun l => l.map (fun _ => ([] : List ℚ))) (by decide)

/-- Counterexample to C1 as originally stated: in the batch orchestrator of
recursos.js a provider response carrying fewer vectors than there are chunks
(here one vector for three chunks) leaves the tail rows `error`, and
`errorCount === 0 ? 'completed' : 'error'` then marks the document `error`
even though the first segment's embedding succeeded. -/
theorem spec_C1_cex :
    (∃ row ∈ (processRecursoChunksBatch (fun _ => [[(0 : ℚ)]])
        (some (List.replicate 2100 'a')) none none none).2,
      row.embeddingStatus = EmbStatus.completed) ∧
    (processRecursoChunksBatch (fun _ => [[(0 : ℚ)]])
        (some (List.replicate 2100 'a')) none none none).1 = EmbStatus.error := by
  have h1 : ¬ ((trimWS (assembleFullText (some (List.replicate 2100 'a'))
      none none)).length = 0) := by
    rw [assembleFullText_replicate_2100, trimWS_replicate, List.length_replicate]
    norm_num
  have h2 : ¬ ((splitTextIntoChunks (assembleFullText (some (List.replicate 2100 'a'))
      none none)).length = 0) := by
    rw [assembleFullText_replicate_2100, splitTextIntoChunks_replicate_2100]
    simp
  have hrows : batchUpdateRows
      (splitTextIntoChunks (assembleFullText (some (List.replicate 2100 'a')) none none))
      ((generateEmbeddingsBatch (fun _ => [[(0 : ℚ)]])
        ((splitTextIntoChunks (assembleFullText (some (List.replicate 2100 'a'))
          none none)).map (fun c => c.content))).1)
      = [⟨0, List.replicate 2000 'a', 500, .completed⟩,
         ⟨1, List.replicate 300 'a', 75, .error⟩,
         ⟨2, List.replicate 200 'a', 50, .error⟩] := by
    rw [assembleFullText_replicate_2100, splitTextIntoChunks_replicate_2100,
      emb_cex_eval]
    rfl
  unfold processRecursoChunksBatch
  rw [if_neg h1]
  simp only
  rw [if_neg h2]
  simp only
  rw [hrows]
  decide

/-- C8: a document whose assembled text (title, description, body, each
optional, `filter(Boolean)`-ed and joined with a paragraph separator) is
empty or whitespace-only is marked `error` and no segment rows are created,
in both orchestrator variants. -/
theorem spec_C8_empty_text (titulo descripcion contenido : Option (List Char))
    (embedOk : Nat → Bool) (outcome : Nat → StreamOutcome) (fault fault2 : Option Nat)
    (h : trimWS (assembleFullText titulo descripcion contenido) = []) :
    processRecursoChunks titulo descripcion contenido embedOk fault
      = (.error, []) ∧
    processRecursoChunksWithContent (assembleFullText titulo descripcion contenido)
      outcome fault2 = (.error, []) := by
  have hz : (trimWS (assembleFullText titulo descripcion contenido)).length = 0 := by
    rw [h]
    rfl
  constructor
  · unfold processRecursoChunks
    rw [if_pos hz]
  · unfold processRecursoChunksWithContent
    rw [if_pos hz]

/-- Witness for C8: all three fields absent. -/
theorem spec_C8_empty_text_witness :
    processRecursoChunks none none none (fun _ => true) none = (.error, []) ∧
    processRecursoChunksWithContent (assembleFullText none none none)
      (fun _ => .ok) none = (.error, []) :=
  spec_C8_empty_text none none none (fun _ => true) (fun _ => .ok) none none (by decide)

/-- C9: whenever either ingestion routine finishes — normally or through the
enclosing recovery path triggered by an unhandled fault — the document's
embedding status is terminal (`completed` or `error`), never `processing`
or `pending`. -/
theorem spec_C9_terminal_status (titulo descripcion contenido : Option (List Char))
    (embedOk : Nat → Bool) (fullText : List Char) (outcome : Nat → StreamOutcome)
    (fault fault2 : Option Nat) :
    ((processRecursoChunks titulo descripcion contenido embedOk fault).1 = .completed ∨
     (processRecursoChunks titulo descripcion contenido embedOk fault).1 = .error) ∧
    ((processRecursoChunksWithContent fullText outcome fault2).1 = .completed ∨
     (processRecursoChunksWithContent fullText outcome fault2).1 = .error) := by
  constructor
  · simp only [processRecursoChunks]
    repeat' split
    all_goals first | exact Or.inl rfl | exact Or.inr rfl
  · simp only [processRecursoChunksWithContent]
    repeat' split
    all_goals first | exact Or.inl rfl | exact Or.inr rfl

/-- C10: in the streaming orchestrator, every row persisted with status
`error` stores exactly the first 1000 characters of its chunk's content (a
prefix, of length at most 1000, proper whenever the chunk is longer than
1000 characters), while every row persisted with status `completed` stores
the chunk's full content. -/
theorem spec_C10_error_row_truncation (fullText : List Char)
    (outcome : Nat → StreamOutcome) (fault : Option Nat)
    (row : SegRow)
    (hrow : row ∈ (processRecursoChunksWithContent fullText outcome fault).2) :
    (row.embeddingStatus = .error →
      ∃ ch ∈ splitTextIntoChunks fullText, row.chunkIndex = ch.index ∧
        row.contenido = ch.content.take 1000 ∧
        row.contenido.length ≤ 1000 ∧
        row.contenido <+: ch.content ∧
        (1000 < ch.content.length → row.contenido ≠ ch.content)) ∧
    (row.embeddingStatus = .completed →
      ∃ ch ∈ splitTextIntoChunks fullText, row.chunkIndex = ch.index ∧
        row.contenido = ch.content) := by
  have hstream : ∀ (c : ChunkRec), c ∈ splitTextIntoChunks fullText →
      row ∈ streamChunkRows c (outcome c.index) →
      (row.embeddingStatus = .error →
        ∃ ch ∈ splitTextIntoChunks fullText, row.chunkIndex = ch.index ∧
          row.contenido = ch.content.take 1000 ∧
          row.contenido.length ≤ 1000 ∧
          row.contenido <+: ch.content ∧
          (1000 < ch.content.length → row.contenido ≠ ch.content)) ∧
      (row.embeddingStatus = .completed →
        ∃ ch ∈ splitTextIntoChunks fullText, row.chunkIndex = ch.index ∧
          row.contenido = ch.content) := by
    intro c hc hmem
    have herr : row = SegRow.mk c.index (c.content.take 1000) c.tokens .error →
        (row.embeddingStatus = .error →
          ∃ ch ∈ splitTextIntoChunks fullText, row.chunkIndex = ch.index ∧
            row.contenido = ch.content.take 1000 ∧
            row.contenido.length ≤ 1000 ∧
            row.contenido <+: ch.content ∧
            (1000 < ch.content.length → row.contenido ≠ ch.content)) ∧
        (row.embeddingStatus = .completed →
          ∃ ch ∈ splitTextIntoChunks fullText, row.chunkIndex = ch.index ∧
            row.contenido = ch.content) := by
      intro hr
      subst hr
      refine ⟨fun _ => ⟨c, hc, rfl, rfl, ?_, List.take_prefix _ _, ?_⟩,
        fun hco => absurd hco (by simp)⟩
      · simp only [List.length_take]
        omega
      · intro hlong heq
        have := congrArg List.length heq
        simp only [List.length_take] at this
        omega
    cases ho : outcome c.index with
    | ok =>
      rw [ho] at hmem
      simp only [streamChunkRows, List.mem_singleton, List.mem_cons,
        List.not_mem_nil, or_false] at hmem
      subst hmem
      exact ⟨fun herr2 => absurd herr2 (by simp), fun _ => ⟨c, hc, rfl, rfl⟩⟩
    | failBeforeCreate =>
      rw [ho] at hmem
      simp only [streamChunkRows, List.mem_singleton, List.mem_cons,
        List.not_mem_nil, or_false] at hmem
      exact herr hmem
    | failAfterCreate =>
      rw [ho] at hmem
      simp only [streamChunkRows, List.mem_singleton, List.mem_cons,
        List.not_mem_nil, or_false] at hmem
      rcases hmem with hmem | hmem
      · subst hmem
        exact ⟨fun h2 => absurd h2 (by simp), fun h2 => absurd h2 (by simp)⟩
      · exact herr hmem
  unfold processRecursoChunksWithContent at hrow
  split at hrow
  · simp at hrow
  · simp only at hrow
    split at hrow
    · simp at hrow
    · split at hrow
      · simp only [List.mem_flatten] at hrow
        obtain ⟨rows0, hrows0, hrow0⟩ := hrow
        rw [List.mem_map] at hrows0
        obtain ⟨c, hc, hrows0⟩ := hrows0
        subst hrows0
        exact hstream c (List.take_subset _ _ hc) hrow0
      · simp only [List.mem_flatten] at hrow
        obtain ⟨rows0, hrows0, hrow0⟩ := hrow
        rw [List.mem_map] at hrows0
        obtain ⟨c, hc, hrows0⟩ := hrows0
        subst hrows0
        exact hstream c hc hrow0

/-- Witness for C10: a 1200-character chunk that fails before its row is
created leaves an `error` row holding only the first 1000 characters — a
proper prefix of the chunk content. -/
theorem spec_C10_error_row_truncation_witness :
    ∃ ch ∈ splitTextIntoChunks (List.replicate 1200 'a'),
      (SegRow.mk 0 (List.replicate 1000 'a') 300 .error).chunkIndex = ch.index ∧
      (SegRow.mk 0 (List.replicate 1000 'a') 300 .error).contenido
        = ch.content.take 1000 ∧
      (SegRow.mk 0 (List.replicate 1000 'a') 300 .error).contenido.length ≤ 1000 ∧
      (SegRow.mk 0 (List.replicate 1000 'a') 300 .error).contenido <+: ch.content ∧
      (1000 < ch.content.length →
        (SegRow.mk 0 (List.replicate 1000 'a') 300 .error).contenido ≠ ch.content) :=
  (spec_C10_error_row_truncation (List.replicate 1200 'a')
    (fun _ => .failBeforeCreate) none
    (SegRow.mk 0 (List.replicate 1000 'a') 300 .error) (by decide)).1 (by decide)

/-! ## Claim C2: the retrieval aggregator -/

theorem addChunkToResource_lt (r : ResourceAgg) (hit : ChunkHit)
    (h3 : r.chunks.length < 3) :
    addChunkToResource r hit
      = ⟨r.id, max r.similarity hit.similarity,
         List.intercalate chunkSeparator (r.chunks ++ [hit.contenido]),
         r.chunks ++ [hit.contenido]⟩ := by
  unfold addChunkToResource
  simp only [if_pos h3]
  split
  · rename_i hs
    have hs2 : r.similarity ≤ hit.similarity := le_of_lt hs
    rw [max_eq_right hs2]
  · rename_i hs
    have hs2 : hit.similarity ≤ r.similarity := le_of_not_lt hs
    rw [max_eq_left hs2]

theorem addChunkToResource_ge (r : ResourceAgg) (hit : ChunkHit)
    (h3 : ¬ r.chunks.length < 3) :
    addChunkToResource r hit
      = ⟨r.id, max r.similarity hit.similarity, r.contenido, r.chunks⟩ := by
  unfold addChunkToResource
  simp only [if_neg h3]
  split
  · rename_i hs
    have hs2 : r.similarity ≤ hit.similarity := le_of_lt hs
    rw [max_eq_right hs2]
  · rename_i hs
    have hs2 : hit.similarity ≤ r.similarity := le_of_not_lt hs
    rw [max_eq_left hs2]

theorem addChunkToResource_id (r : ResourceAgg) (hit : ChunkHit) :
    (addChunkToResource r hit).id = r.id := by
  by_cases h3 : r.chunks.length < 3
  · rw [addChunkToResource_lt r hit h3]
  · rw [addChunkToResource_ge r hit h3]

theorem intercalate_one (x : List Char) :
    List.intercalate chunkSeparator [x] = x := by
  simp [List.intercalate, List.intersperse]

theorem take3_append_one (C : List (List Char)) (x : List Char) (h : C.length < 3) :
    (C ++ [x]).take 3 = C.take 3 ++ [x] := by
  rw [List.take_of_length_le (by simp; omega), List.take_of_length_le (by omega)]

theorem aggInv_step (pre : List ChunkHit) (acc : List ResourceAgg) (hit : ChunkHit)
    (hinv : AggInv pre acc) : AggInv (pre ++ [hit]) (insertChunkHit acc hit) := by
  obtain ⟨hnodup, hmemiff, hentries⟩ := hinv
  unfold insertChunkHit
  by_cases hpresent : acc.any (fun r => r.id == hit.recursoId) = true
  · rw [if_pos hpresent]
    have hids : (acc.map (fun r =>
        if r.id == hit.recursoId then addChunkToResource r hit else r)).map
          (fun r => r.id) = acc.map (fun r => r.id) := by
      rw [List.map_map]
      refine List.map_congr_left ?_
      intro r _
      simp only [Function.comp]
      by_cases hb : (r.id == hit.recursoId) = true
      · rw [if_pos hb, addChunkToResource_id]
      · rw [if_neg hb]
    have hhitmem : hit.recursoId ∈ pre.map (fun h => h.recursoId) := by
      rw [List.any_eq_true] at hpresent
      obtain ⟨r, hr, hb⟩ := hpresent
      have : r.id = hit.recursoId := by simpa using hb
      rw [← hmemiff]
      rw [List.mem_map]
      exact ⟨r, hr, this⟩
    refine ⟨by rw [hids]; exact hnodup, ?_, ?_⟩
    · intro n
      rw [hids, hmemiff n, List.map_append, List.mem_append]
      constructor
      · exact Or.inl
      · intro h
        rcases h with h | h
        · exact h
        · simp only [List.map_cons, List.map_nil, List.mem_singleton] at h
          subst h
          exact hhitmem
    · intro r2 hr2
      rw [List.mem_map] at hr2
      obtain ⟨r, hr, hr2eq⟩ := hr2
      obtain ⟨hch, hco, hle, hat⟩ := hentries r hr
      by_cases hb : (r.id == hit.recursoId) = true
      · rw [if_pos hb] at hr2eq
        subst hr2eq
        have hid : r.id = hit.recursoId := by simpa using hb
        have hfilt : (pre ++ [hit]).filter
            (fun h => h.recursoId == (addChunkToResource r hit).id)
            = pre.filter (fun h => h.recursoId == r.id) ++ [hit] := by
          rw [addChunkToResource_id, List.filter_append]
          congr 1
          simp [hid]
        have hatx : ∀ s : ℚ, max r.similarity hit.similarity = s →
            ∃ h ∈ pre ++ [hit], h.recursoId = r.id ∧ h.similarity = s := by
          intro s hs
          rcases max_cases r.similarity hit.similarity with ⟨hmx, _⟩ | ⟨hmx, _⟩
          · obtain ⟨h0, h0mem, h0id, h0sim⟩ := hat
            exact ⟨h0, List.mem_append.mpr (Or.inl h0mem), h0id,
              by rw [h0sim, ← hmx, hs]⟩
          · exact ⟨hit, List.mem_append.mpr (Or.inr (List.mem_singleton_self _)),
              hid.symm, by rw [← hmx, hs]⟩
        have hlex : ∀ h ∈ pre ++ [hit], h.recursoId = r.id →
            h.similarity ≤ max r.similarity hit.similarity := by
          intro h hmem hhid
          rw [List.mem_append] at hmem
          rcases hmem with hmem | hmem
          · exact le_trans (hle h hmem hhid) (le_max_left _ _)
          · simp only [List.mem_singleton] at hmem
            subst hmem
            exact le_max_right _ _
        by_cases h3 : r.chunks.length < 3
        · have hmlen : ((pre.filter (fun h => h.recursoId == r.id)).map
              (fun h => h.contenido)).length < 3 := by
            rw [hch] at h3
            simp only [List.length_take] at h3
            omega
          rw [addChunkToResource_lt r hit h3] at hfilt ⊢
          simp only at hfilt ⊢
          refine ⟨?_, trivial, hlex, hatx _ rfl⟩
          rw [hfilt, List.map_append]
          simp only [List.map_cons, List.map_nil]
          rw [take3_append_one _ _ hmlen, ← hch]
        · have hmlen : 3 ≤ ((pre.filter (fun h => h.recursoId == r.id)).map
              (fun h => h.contenido)).length := by
            rw [hch] at h3
            simp only [List.length_take] at h3
            omega
          rw [addChunkToResource_ge r hit h3] at hfilt ⊢
          simp only at hfilt ⊢
          refine ⟨?_, hco, hlex, hatx _ rfl⟩
          rw [hfilt, List.map_append]
          simp only [List.map_cons, List.map_nil]
          rw [List.take_append_of_le_length hmlen, ← hch]
      · rw [if_neg hb] at hr2eq
        subst hr2eq
        have hid : ¬ r.id = hit.recursoId := by simpa using hb
        have hfilt : (pre ++ [hit]).filter (fun h => h.recursoId == r.id)
            = pre.filter (fun h => h.recursoId == r.id) := by
          rw [List.filter_append]
          have hone : [hit].filter (fun h => h.recursoId == r.id) = [] := by
            rw [List.filter_cons, if_neg (by
              simp only [beq_iff_eq]
              intro h
              exact hid h.symm), List.filter_nil]
          rw [hone, List.append_nil]
        refine ⟨by rw [hfilt]; exact hch, hco, ?_, ?_⟩
        · intro h hmem hhid
          rw [List.mem_append] at hmem
          rcases hmem with hmem | hmem
          · exact hle h hmem hhid
          · simp only [List.mem_singleton] at hmem
            subst hmem
            exact absurd hhid.symm hid
        · obtain ⟨h0, h0mem, h0id, h0sim⟩ := hat
          exact ⟨h0, List.mem_append.mpr (Or.inl h0mem), h0id, h0sim⟩
  · rw [if_neg hpresent]
    have hnotin : hit.recursoId ∉ acc.map (fun r => r.id) := by
      intro hmem
      rw [List.mem_map] at hmem
      obtain ⟨r, hr, hrid⟩ := hmem
      exact hpresent (List.any_eq_true.mpr ⟨r, hr, by simp [hrid]⟩)
    have hnotin2 : hit.recursoId ∉ pre.map (fun h => h.recursoId) := by
      rw [← hmemiff]
      exact hnotin
    refine ⟨?_, ?_, ?_⟩
    · rw [List.map_append]
      rw [List.nodup_append]
      refine ⟨hnodup, by simp, ?_⟩
      intro n hn hn2
      simp only [List.map_cons, List.map_nil, List.mem_singleton] at hn2
      subst hn2
      exact hnotin hn
    · intro n
      rw [List.map_append, List.map_append, List.mem_append, List.mem_append,
        hmemiff n]
      simp
    · intro r2 hr2
      rw [List.mem_append] at hr2
      rcases hr2 with hr2 | hr2
      · obtain ⟨hch, hco, hle, hat⟩ := hentries r2 hr2
        have hrid : ¬ hit.recursoId = r2.id := by
          intro h
          refine hnotin ?_
          rw [h, hmemiff]
          obtain ⟨h0, h0mem, h0id, _⟩ := hat
          rw [List.mem_map]
          exact ⟨h0, h0mem, h0id⟩
        have hfilt : (pre ++ [hit]).filter (fun h => h.recursoId == r2.id)
            = pre.filter (fun h => h.recursoId == r2.id) := by
          rw [List.filter_append]
          have hone : [hit].filter (fun h => h.recursoId == r2.id) = [] := by
            rw [List.filter_cons, if_neg (by
              simp only [beq_iff_eq]
              exact hrid), List.filter_nil]
          rw [hone, List.append_nil]
        refine ⟨by rw [hfilt]; exact hch, hco, ?_, ?_⟩
        · intro h hmem hhid
          rw [List.mem_append] at hmem
          rcases hmem with hmem | hmem
          · exact hle h hmem hhid
          · simp only [List.mem_singleton] at hmem
            subst hmem
            exact absurd hhid hrid
        · obtain ⟨h0, h0mem, h0id, h0sim⟩ := hat
          exact ⟨h0, List.mem_append.mpr (Or.inl h0mem), h0id, h0sim⟩
      · simp only [List.mem_singleton] at hr2
        subst hr2
        have hfilt : (pre ++ [hit]).filter (fun h => h.recursoId == hit.recursoId)
            = [hit] := by
          rw [List.filter_append]
          have h1 : pre.filter (fun h => h.recursoId == hit.recursoId) = [] := by
            rw [List.filter_eq_nil_iff]
            intro a ha
            simp only [beq_iff_eq]
            intro haid
            exact hnotin2 (List.mem_map.mpr ⟨a, ha, haid⟩)
          rw [h1]
          simp
        refine ⟨?_, ?_, ?_, ?_⟩
        · simp only
          rw [hfilt]
          rfl
        · simp only
          rw [intercalate_one]
        · intro h hmem hhid
          rw [List.mem_append] at hmem
          rcases hmem with hmem | hmem
          · exact absurd (List.mem_map.mpr ⟨h, hmem, hhid⟩) hnotin2
          · simp only [List.mem_singleton] at hmem
            subst hmem
            exact le_refl _
        · exact ⟨hit, List.mem_append.mpr (Or.inr (List.mem_singleton_self _)),
            rfl, rfl⟩

theorem aggInv_fold (rest : List ChunkHit) :
    ∀ (pre : List ChunkHit) (acc : List ResourceAgg), AggInv pre acc →
      AggInv (pre ++ rest) (rest.foldl insertChunkHit acc) := by
  induction rest with
  | nil => intro pre acc h; simpa using h
  | cons hit rest ih =>
    intro pre acc h
    have h2 := ih (pre ++ [hit]) (insertChunkHit acc hit) (aggInv_step pre acc hit h)
    rw [List.append_assoc] at h2
    simpa using h2

theorem aggInv_holds (hits : List ChunkHit) :
    AggInv hits (aggregateChunkHits hits) := by
  have h := aggInv_fold hits [] [] ⟨by simp, by simp, by simp⟩
  simpa [aggregateChunkHits] using h

theorem nodup_length_eq_dedup (A B : List Nat) (hA : A.Nodup)
    (h : ∀ n, n ∈ A ↔ n ∈ B) : A.length = B.dedup.length := by
  rw [← List.toFinset_card_of_nodup hA, ← List.card_toFinset]
  congr 1
  ext n
  simp only [List.mem_toFinset]
  exact h n

set_option maxHeartbeats 1000000 in
/-- C2: on a non-empty ranked (descending-similarity) chunk query result,
`searchSimilar` groups the chunks by parent resource — output ids are
distinct and drawn from the hits; each entry retains at most its first 3
chunk contents in encounter order, joined with the visible separator as its
content, and its similarity equals the maximum similarity among its
(at most 3) contributing chunks; the output is sorted by similarity
descending and truncated to the requested `limit`. -/
theorem spec_C2_retrieval_aggregation (hits : List ChunkHit) (limit : Nat)
    (_hne : hits ≠ [])
    (hranked : List.Pairwise (fun a b : ChunkHit => b.similarity ≤ a.similarity) hits) :
    ((searchSimilar hits limit).map (fun r => r.id)).Nodup ∧
    (∀ r ∈ searchSimilar hits limit, r.id ∈ hits.map (fun h => h.recursoId)) ∧
    (∀ r ∈ searchSimilar hits limit,
      r.chunks = ((hits.filter (fun h => h.recursoId == r.id)).map
        (fun h => h.contenido)).take 3 ∧
      r.contenido = List.intercalate chunkSeparator r.chunks ∧
      (((hits.filter (fun h => h.recursoId == r.id)).take 3).map
        (fun h => h.similarity)).maximum = some r.similarity) ∧
    List.Pairwise (fun a b : ResourceAgg => b.similarity ≤ a.similarity)
      (searchSimilar hits limit) ∧
    (searchSimilar hits limit).length
      = min limit ((hits.map (fun h => h.recursoId)).dedup.length) := by
  obtain ⟨hnodup, hmemiff, hentries⟩ := aggInv_holds hits
  have hperm := List.mergeSort_perm (aggregateChunkHits hits)
    (fun a b : ResourceAgg => decide (b.similarity ≤ a.similarity))
  have hsorted := @List.sorted_mergeSort ResourceAgg
    (fun a b : ResourceAgg => decide (b.similarity ≤ a.similarity))
    (fun a b c h1 h2 => by
      simp only [decide_eq_true_eq] at h1 h2 ⊢
      exact le_trans h2 h1)
    (fun a b => by
      simp only [Bool.or_eq_true, decide_eq_true_eq]
      exact le_total _ _)
    (aggregateChunkHits hits)
  have hmem_out : ∀ r, r ∈ searchSimilar hits limit →
      r ∈ aggregateChunkHits hits := by
    intro r hr
    unfold searchSimilar at hr
    exact hperm.mem_iff.mp (List.take_subset _ _ hr)
  refine ⟨?_, ?_, ?_, ?_, ?_⟩
  · unfold searchSimilar
    rw [List.map_take]
    refine List.Nodup.sublist (List.take_sublist _ _) ?_
    exact (List.Perm.nodup_iff (hperm.map _)).mpr hnodup
  · intro r hr
    rw [← hmemiff]
    exact List.mem_map_of_mem _ (hmem_out r hr)
  · intro r hr
    obtain ⟨hch, hco, hle, hat⟩ := hentries r (hmem_out r hr)
    refine ⟨hch, hco, ?_⟩
    obtain ⟨h0, h0mem, h0id, h0sim⟩ := hat
    have h0f : h0 ∈ hits.filter (fun h => h.recursoId == r.id) :=
      List.mem_filter.mpr ⟨h0mem, by simp [h0id]⟩
    have hSsorted : List.Pairwise (fun a b : ChunkHit => b.similarity ≤ a.similarity)
        (hits.filter (fun h => h.recursoId == r.id)) := hranked.filter _
    rcases hS : hits.filter (fun h => h.recursoId == r.id) with _ | ⟨s, S2⟩
    · rw [hS] at h0f
      exact absurd h0f (by simp)
    · have hsmem : s ∈ hits.filter (fun h => h.recursoId == r.id) := by
        rw [hS]
        simp
      have hs_in_hits : s ∈ hits := (List.mem_filter.mp hsmem).1
      have hs_id : s.recursoId = r.id := by
        have := (List.mem_filter.mp hsmem).2
        simpa using this
      have hs_le : s.similarity ≤ r.similarity := hle s hs_in_hits hs_id
      have hr_le : r.similarity ≤ s.similarity := by
        rw [hS] at h0f
        rcases List.mem_cons.mp h0f with h | h
        · rw [← h0sim, h]
        · rw [hS] at hSsorted
          have := (List.pairwise_cons.mp hSsorted).1 h0 h
          rw [← h0sim]
          exact this
      have hs_eq : s.similarity = r.similarity := le_antisymm hs_le hr_le
      show (((hits.filter (fun h => h.recursoId == r.id)).take 3).map
        (fun h => h.similarity)).maximum = (r.similarity : WithBot ℚ)
      rw [List.maximum_eq_coe_iff]
      constructor
      · rw [hS]
        rw [← hs_eq]
        refine List.mem_map_of_mem _ ?_
        simp
      · intro b hb
        rw [List.mem_map] at hb
        obtain ⟨h1, h1mem, h1sim⟩ := hb
        have h1f : h1 ∈ hits.filter (fun h => h.recursoId == r.id) :=
          List.take_subset _ _ h1mem
        have h1id : h1.recursoId = r.id := by
          have := (List.mem_filter.mp h1f).2
          simpa using this
        rw [← h1sim]
        exact hle h1 (List.mem_filter.mp h1f).1 h1id
  · unfold searchSimilar
    refine List.Pairwise.sublist (List.take_sublist _ _) ?_
    refine hsorted.imp ?_
    intro a b h
    simpa using h
  · unfold searchSimilar
    rw [List.length_take, List.length_mergeSort]
    congr 1
    have hlenmap : (aggregateChunkHits hits).length
        = ((aggregateChunkHits hits).map (fun r => r.id)).length := by
      rw [List.length_map]
    rw [hlenmap]
    exact nodup_length_eq_dedup _ _ hnodup hmemiff

/-- Witness for C2: three chunks of resource 1 (similarities 0.95, 0.9,
0.8) and one of resource 2 (similarity 0.7), in ranked order. -/
theorem spec_C2_retrieval_aggregation_witness :
    (((searchSimilar [⟨1, 95/100, ['x']⟩, ⟨1, 9/10, ['y']⟩, ⟨1, 8/10, ['z']⟩,
        ⟨2, 7/10, ['w']⟩] 5).map (fun r => r.id)).Nodup ∧
     (∀ r ∈ searchSimilar [⟨1, 95/100, ['x']⟩, ⟨1, 9/10, ['y']⟩, ⟨1, 8/10, ['z']⟩,
        ⟨2, 7/10, ['w']⟩] 5,
       r.id ∈ ([⟨1, 95/100, ['x']⟩, ⟨1, 9/10, ['y']⟩, ⟨1, 8/10, ['z']⟩,
        ⟨2, 7/10, ['w']⟩] : List ChunkHit).map (fun h => h.recursoId)) ∧
     (∀ r ∈ searchSimilar [⟨1, 95/100, ['x']⟩, ⟨1, 9/10, ['y']⟩, ⟨1, 8/10, ['z']⟩,
        ⟨2, 7/10, ['w']⟩] 5,
       r.chunks = ((([⟨1, 95/100, ['x']⟩, ⟨1, 9/10, ['y']⟩, ⟨1, 8/10, ['z']⟩,
          ⟨2, 7/10, ['w']⟩] : List ChunkHit).filter
            (fun h => h.recursoId == r.id)).map (fun h => h.contenido)).take 3 ∧
       r.contenido = List.intercalate chunkSeparator r.chunks ∧
       (((([⟨1, 95/100, ['x']⟩, ⟨1, 9/10, ['y']⟩, ⟨1, 8/10, ['z']⟩,
          ⟨2, 7/10, ['w']⟩] : List ChunkHit).filter
            (fun h => h.recursoId == r.id)).take 3).map
              (fun h => h.similarity)).maximum = some r.similarity) ∧
     List.Pairwise (fun a b : ResourceAgg => b.similarity ≤ a.similarity)
       (searchSimilar [⟨1, 95/100, ['x']⟩, ⟨1, 9/10, ['y']⟩, ⟨1, 8/10, ['z']⟩,
        ⟨2, 7/10, ['w']⟩] 5) ∧
     (searchSimilar [⟨1, 95/100, ['x']⟩, ⟨1, 9/10, ['y']⟩, ⟨1, 8/10, ['z']⟩,
        ⟨2, 7/10, ['w']⟩] 5).length
       = min 5 ((([⟨1, 95/100, ['x']⟩, ⟨1, 9/10, ['y']⟩, ⟨1, 8/10, ['z']⟩,
          ⟨2, 7/10, ['w']⟩] : List ChunkHit).map
            (fun h => h.recursoId)).dedup.length)) :=
  spec_C2_retrieval_aggregation
    [⟨1, 95/100, ['x']⟩, ⟨1, 9/10, ['y']⟩, ⟨1, 8/10, ['z']⟩, ⟨2, 7/10, ['w']⟩] 5
    (by decide) (by norm_num)

end GrowingBackend
